import Mathlib

/-!
# Morph-target weight animation of `VulkanExample::render` (src/main.cpp, lines 628-742)

Shallow embedding of the per-frame animation update: the shared clock, the
loop reset, the keyframe seek and the three interpolation kernels.

Conventions of the embedding:
* `float`/`double` values are exact rationals (`ℚ`); `pow(t, 3.0f)` is `t ^ 3`.
* vectors are lists; an access outside a vector or outside the fixed-size
  `morphPushConst.weights` array is the fault `Fault.outOfBounds`;
* a failing `assert` is the fault `Fault.assertFailed`;
* indices and the `int` offsets of the spline branch are natural numbers (no
  wrap-around below `2^31`), except that `weightsTime.size() - 1` wraps for an
  empty vector, as `size_t` arithmetic does.
The declaration of `vkglTF::Mesh` is not part of main.cpp; the fields below are
the ones `render` uses.
-/

namespace MorphTarget

/-- Sampler kind of a mesh, `vkglTF::Mesh::LINEAR`, `STEP`, `CUBICSPLINE`;
`UNSUPPORTED` stands for any other value (the `default:` label of the switch). -/
inductive Interpolation where
  | LINEAR
  | STEP
  | CUBICSPLINE
  | UNSUPPORTED
  deriving DecidableEq, Repr

/-- Ways in which the frame update can fail instead of producing a state. -/
inductive Fault where
  | outOfBounds
  | assertFailed
  | outOfFuel
  deriving DecidableEq, Repr

/-- The fields of `vkglTF::Mesh` used by `render`; `weights` is
`morphPushConst.weights`. -/
structure Mesh where
  interpolation : Interpolation
  weightsTime : List ℚ
  weightsData : List ℚ
  weightsInit : List ℚ
  currentIndex : Nat
  weights : List ℚ
  deriving DecidableEq, Repr

/-- The fields of `models.cube` used by `render`. -/
structure Model where
  currentTime : ℚ
  animationMaxTime : ℚ
  meshesMorph : List Mesh
  deriving DecidableEq, Repr

/-- Checked read `xs[i]`. -/
def readAt (xs : List ℚ) (i : Nat) : Except Fault ℚ :=
  match xs[i]? with
  | some v => .ok v
  | none => .error .outOfBounds

/-- The value of `v.size() - 1` for a vector of `size` elements: `size_t`
arithmetic, so the empty vector gives `2^64 - 1`. -/
def sizeMinusOne (size : Nat) : Nat :=
  if size = 0 then 2 ^ 64 - 1 else size - 1

/-- The loop `for (size_t i = 0; i < n; i++) weights[i] = src(i);` started at
index `i` with `remaining` iterations to go. -/
def writeWeights (src : Nat → Except Fault ℚ) : Nat → Nat → List ℚ → Except Fault (List ℚ)
  | 0, _, weights => .ok weights
  | remaining + 1, i, weights =>
    match src i with
    | .error e => .error e
    | .ok v =>
      if i < weights.length then writeWeights src remaining (i + 1) (weights.set i v)
      else .error .outOfBounds

/-- The `while (true)` loop of lines 657-667 on `currentIndex`; `fuel` bounds the
number of iterations (see `seek`). -/
def seekLoop (weightsTime : List ℚ) (currentTime : ℚ) : Nat → Nat → Except Fault Nat
  | 0, _ => .error .outOfFuel
  | fuel + 1, currentIndex =>
    if currentIndex = sizeMinusOne weightsTime.length then .ok currentIndex
    else
      match readAt weightsTime (currentIndex + 1) with
      | .error e => .error e
      | .ok next =>
        if currentTime > next then seekLoop weightsTime currentTime fuel (currentIndex + 1)
        else .ok currentIndex

/-- The keyframe seek: every iteration that continues has read
`weightsTime[currentIndex + 1]` in bounds, so `size + 1` iterations are enough
(`seekLoop_fuel`). -/
def seek (weightsTime : List ℚ) (currentTime : ℚ) (currentIndex : Nat) : Except Fault Nat :=
  seekLoop weightsTime currentTime (weightsTime.length + 1) currentIndex

/-- Body of the `for` loop of the `LINEAR` case (lines 679-680). -/
def linearSample (weightsData : List ℚ) (currentIndex n : Nat) (mixRate : ℚ) (i : Nat) :
    Except Fault ℚ :=
  match readAt weightsData ((currentIndex + 1) * n + i) with
  | .error e => .error e
  | .ok w1 =>
    match readAt weightsData (currentIndex * n + i) with
    | .error e => .error e
    | .ok w0 =>
      let weightDiff := w1 - w0
      .ok ((mixRate * weightDiff) + w0)

/-- Body of the `for` loop of the `CUBICSPLINE` case (lines 713-723). -/
def splineSample (weightsData : List ℚ) (currentIndex n : Nat) (t tDelta : ℚ) (i : Nat) :
    Except Fault ℚ :=
  let p0Const := (2 * t ^ 3) - (3 * t ^ 2) + 1
  let m0Const := t ^ 3 - (2 * t ^ 2) + t
  let p1Const := (-2 * t ^ 3) + (3 * t ^ 2)
  let m1Const := t ^ 3 - t ^ 2
  let inTangentOffsetK1 := (currentIndex + 1) * n * 3
  let vertexOffset := (currentIndex * n * 3) + n
  let vertexOffsetK1 := ((currentIndex + 1) * n * 3) + n
  let outTangentOffset := (currentIndex * n * 3) + (n * 2)
  match readAt weightsData (vertexOffset + i) with
  | .error e => .error e
  | .ok v0 =>
    match readAt weightsData (outTangentOffset + i) with
    | .error e => .error e
    | .ok out0 =>
      match readAt weightsData (vertexOffsetK1 + i) with
      | .error e => .error e
      | .ok v1 =>
        match readAt weightsData (inTangentOffsetK1 + i) with
        | .error e => .error e
        | .ok in1 =>
          let p0 := p0Const * v0
          let m0 := m0Const * (out0 * tDelta)
          let p1 := p1Const * v1
          let m1 := m1Const * (in1 * tDelta)
          .ok (p0 + m0 + p1 + m1)

/-- The "fill in with last index" loop (lines 684-687, 692-695, 727-730):
`weights[i] = weightsData[currentIndex * n + i]`. -/
def lastIndexSample (weightsData : List ℚ) (currentIndex n : Nat) (i : Nat) : Except Fault ℚ :=
  readAt weightsData (currentIndex * n + i)

/-- The `switch (mesh.interpolation)` of lines 670-734, run after the seek:
the new contents of `morphPushConst.weights`. -/
def interpolate (currentTime : ℚ) (mesh : Mesh) : Except Fault (List ℚ) :=
  let n := mesh.weightsInit.length
  match mesh.interpolation with
  | .LINEAR =>
    if mesh.currentIndex < sizeMinusOne mesh.weightsTime.length then
      match readAt mesh.weightsTime mesh.currentIndex with
      | .error e => .error e
      | .ok t0 =>
        match readAt mesh.weightsTime (mesh.currentIndex + 1) with
        | .error e => .error e
        | .ok t1 =>
          let mixRate := (currentTime - t0) / (t1 - t0)
          writeWeights (linearSample mesh.weightsData mesh.currentIndex n mixRate) n 0 mesh.weights
    else
      writeWeights (lastIndexSample mesh.weightsData mesh.currentIndex n) n 0 mesh.weights
  | .STEP =>
    writeWeights (lastIndexSample mesh.weightsData mesh.currentIndex n) n 0 mesh.weights
  | .CUBICSPLINE =>
    if mesh.currentIndex < sizeMinusOne mesh.weightsTime.length then
      match readAt mesh.weightsTime (mesh.currentIndex + 1) with
      | .error e => .error e
      | .ok t1 =>
        match readAt mesh.weightsTime mesh.currentIndex with
        | .error e => .error e
        | .ok t0 =>
          let tDelta := t1 - t0
          let t := (currentTime - t0) / tDelta
          if t ≥ 0 ∧ t ≤ 1 then
            writeWeights (splineSample mesh.weightsData mesh.currentIndex n t tDelta) n 0
              mesh.weights
          else .error .assertFailed
    else
      writeWeights (lastIndexSample mesh.weightsData mesh.currentIndex n) n 0 mesh.weights
  | .UNSUPPORTED => .ok mesh.weights

/-- The `if` branch of lines 645-652: `currentIndex = 0` and the copy of
`weightsInit` into `weights`. -/
def resetMesh (mesh : Mesh) : Except Fault Mesh :=
  match writeWeights (readAt mesh.weightsInit) mesh.weightsInit.length 0 mesh.weights with
  | .error e => .error e
  | .ok w => .ok { mesh with currentIndex := 0, weights := w }

/-- The `else` branch of lines 654-735: seek, then interpolate. -/
def sampleMesh (currentTime : ℚ) (mesh : Mesh) : Except Fault Mesh :=
  match seek mesh.weightsTime currentTime mesh.currentIndex with
  | .error e => .error e
  | .ok c =>
    let mesh1 := { mesh with currentIndex := c }
    match interpolate currentTime mesh1 with
    | .error e => .error e
    | .ok w => .ok { mesh1 with weights := w }

/-- The loop `for (auto& mesh : models.cube.meshesMorph)` of lines 642-736, with
the shared `reset` flag threaded through. -/
def updateMeshes (currentTime animationMaxTime : ℚ) :
    List Mesh → Bool → Except Fault (List Mesh × Bool)
  | [], reset => .ok ([], reset)
  | mesh :: rest, reset =>
    if currentTime > animationMaxTime then
      match resetMesh mesh with
      | .error e => .error e
      | .ok mesh1 =>
        match updateMeshes currentTime animationMaxTime rest true with
        | .error e => .error e
        | .ok (rest1, reset1) => .ok (mesh1 :: rest1, reset1)
    else
      match sampleMesh currentTime mesh with
      | .error e => .error e
      | .ok mesh1 =>
        match updateMeshes currentTime animationMaxTime rest reset with
        | .error e => .error e
        | .ok (rest1, reset1) => .ok (mesh1 :: rest1, reset1)

/-- The animation part of `render` (lines 628-742) for a frame that took
`tDiff` seconds. -/
def render (models : Model) (tDiff : ℚ) : Except Fault Model :=
  let currentTime := models.currentTime + tDiff
  match updateMeshes currentTime models.animationMaxTime models.meshesMorph false with
  | .error e => .error e
  | .ok (meshes, reset) =>
    .ok { models with
      currentTime := if reset then 0 else currentTime
      meshesMorph := meshes }

/-- The sampler step `advance(track, state, deltaTime, clipDuration)` of the
design: `render` on a model with the single mesh `mesh`, whose fields
`weightsTime`, `weightsData`, `weightsInit`, `interpolation` are the track and
whose `currentIndex`, `weights` together with `currentTime` are the state. -/
def advance (mesh : Mesh) (currentTime deltaTime clipDuration : ℚ) : Except Fault (ℚ × Mesh) :=
  match render
      { currentTime := currentTime, animationMaxTime := clipDuration, meshesMorph := [mesh] }
      deltaTime with
  | .error e => .error e
  | .ok models =>
    match models.meshesMorph with
    | [mesh1] => .ok (models.currentTime, mesh1)
    | _ => .error .outOfBounds

/-- A run of `advance` calls, one per entry of `deltas`, from the state
`(state.1, state.2)`. -/
def advanceAll (clipDuration : ℚ) : List ℚ → ℚ × Mesh → Except Fault (ℚ × Mesh)
  | [], state => .ok state
  | deltaTime :: deltas, state =>
    match advance state.2 state.1 deltaTime clipDuration with
    | .error e => .error e
    | .ok state1 => advanceAll clipDuration deltas state1

/-- The state at clip start: playhead at keyframe 0, weights as given. -/
def fresh (mesh : Mesh) : ℚ × Mesh :=
  (0, { mesh with currentIndex := 0, weights := mesh.weightsInit })

/-- The scenario track of the design: two targets, three keyframes. -/
def scenarioMesh (kind : Interpolation) : Mesh :=
  { interpolation := kind
    weightsTime := [0, 1, 2]
    weightsData := [0, 0, 1, 1, 0, 0]
    weightsInit := [0, 0]
    currentIndex := 0
    weights := [0, 0] }

/-- Value of the Hermite kernel for target `i` between keyframes `c` and
`c + 1` of a packed buffer, as the spline branch computes it. -/
def splineValue (wd : List ℚ) (c n : Nat) (t tDelta : ℚ) (i : Nat) : ℚ :=
  ((2 * t ^ 3) - (3 * t ^ 2) + 1) * wd.getD ((c * n * 3) + n + i) 0 +
    (t ^ 3 - (2 * t ^ 2) + t) * (wd.getD ((c * n * 3) + (n * 2) + i) 0 * tDelta) +
    ((-2 * t ^ 3) + (3 * t ^ 2)) * wd.getD (((c + 1) * n * 3) + n + i) 0 +
    (t ^ 3 - t ^ 2) * (wd.getD ((c + 1) * n * 3 + i) 0 * tDelta)

/-- The spline scenario of the design: one target, two keyframes, packed
`[inTan0, p0, outTan0, inTan1, p1, outTan1]`. -/
def splineScenarioMesh : Mesh :=
  { interpolation := .CUBICSPLINE
    weightsTime := [0, 1]
    weightsData := [0, 0, 0, 0, 1, 0]
    weightsInit := [0]
    currentIndex := 0
    weights := [0] }

/-- A track of the given kind, one target and two keyframes, whose first
keyframe lies at time 1: the clip starts before it. The buffer is packed for
`CUBICSPLINE` and plain otherwise. -/
def lateMesh (kind : Interpolation) : Mesh :=
  { interpolation := kind
    weightsTime := [1, 2]
    weightsData := if kind = .CUBICSPLINE then [0, 0, 0, 0, 1, 0] else [0, 1]
    weightsInit := [0]
    currentIndex := 0
    weights := [0] }

/-- A STEP track, one target and two keyframes, whose initial weight (5)
differs from the weight of its first keyframe (1). -/
def poseMesh : Mesh :=
  { interpolation := .STEP
    weightsTime := [0, 1]
    weightsData := [1, 2]
    weightsInit := [5]
    currentIndex := 0
    weights := [5] }

/-! ## Checked reads and the write loop -/

theorem readAt_ok (xs : List ℚ) (i : Nat) (h : i < xs.length) :
    readAt xs i = .ok (xs.getD i 0) := by
  simp [readAt, List.getD, List.getElem?_eq_getElem h]

theorem readAt_eq_ok (xs : List ℚ) (i : Nat) (v : ℚ) (h : readAt xs i = .ok v) :
    i < xs.length ∧ v = xs.getD i 0 := by
  unfold readAt at h
  cases hx : xs[i]? with
  | none => simp [hx] at h
  | some w =>
    simp only [hx, Except.ok.injEq] at h
    have hlt : i < xs.length := by
      by_contra hge
      rw [List.getElem?_eq_none (by omega)] at hx
      cases hx
    refine ⟨hlt, ?_⟩
    simp [List.getD, hx, h]

/-- The write loop succeeds when every source value is available and the
array is long enough; it overwrites exactly the entries `i .. i + remaining - 1`. -/
theorem writeWeights_ok (src : Nat → Except Fault ℚ) (g : Nat → ℚ) :
    ∀ (remaining i : Nat) (w : List ℚ),
      (∀ j, i ≤ j → j < i + remaining → src j = .ok (g j)) →
      i + remaining ≤ w.length →
      ∃ w1, writeWeights src remaining i w = .ok w1 ∧ w1.length = w.length ∧
        (∀ j, i ≤ j → j < i + remaining → w1[j]? = some (g j)) ∧
        (∀ j, (j < i ∨ i + remaining ≤ j) → w1[j]? = w[j]?) := by
  intro remaining
  induction remaining with
  | zero =>
    intro i w _ _
    exact ⟨w, rfl, rfl, fun j h1 h2 => by omega, fun _ _ => rfl⟩
  | succ k ih =>
    intro i w hsrc hlen
    have hi : i < w.length := by omega
    obtain ⟨w1, hw1, hl1, hin, hout⟩ :=
      ih (i + 1) (w.set i (g i)) (fun j h1 h2 => hsrc j (by omega) (by omega))
        (by simp only [List.length_set]; omega)
    refine ⟨w1, ?_, ?_, ?_, ?_⟩
    · simp only [writeWeights, hsrc i (le_refl i) (by omega), hi, if_true]
      exact hw1
    · simpa using hl1
    · intro j h1 h2
      by_cases hji : j = i
      · subst hji
        rw [hout j (Or.inl (by omega))]
        simp [List.getElem?_set, hi]
      · exact hin j (by omega) (by omega)
    · intro j hj
      rw [hout j (by omega)]
      have hne : i ≠ j := by omega
      simp [List.getElem?_set, hne]

/-- Whatever the write loop returns has the length of the array it started from. -/
theorem writeWeights_length (src : Nat → Except Fault ℚ) :
    ∀ (remaining i : Nat) (w w1 : List ℚ),
      writeWeights src remaining i w = .ok w1 → w1.length = w.length := by
  intro remaining
  induction remaining with
  | zero =>
    intro i w w1 h
    simp only [writeWeights, Except.ok.injEq] at h
    rw [h]
  | succ k ih =>
    intro i w w1 h
    simp only [writeWeights] at h
    cases hs : src i with
    | error e => simp [hs] at h
    | ok v =>
      simp only [hs] at h
      by_cases hi : i < w.length
      · simp only [hi, if_true] at h
        simpa using ih (i + 1) (w.set i v) w1 h
      · simp [hi] at h

/-! ## The keyframe seek -/

theorem sizeMinusOne_pos (size : Nat) (h : 0 < size) : sizeMinusOne size = size - 1 := by
  simp [sizeMinusOne, Nat.pos_iff_ne_zero.mp h]

/-- What a successful seek says about its result: it lies at or after the
start, inside the track, it is a stopping index, and every index passed on
the way was not. -/
theorem seekLoop_eq_ok (kt : List ℚ) (t : ℚ) (hK : 0 < kt.length) :
    ∀ (fuel c j : Nat), seekLoop kt t fuel c = .ok j →
      c ≤ j ∧ j < kt.length ∧ (j = kt.length - 1 ∨ t ≤ kt.getD (j + 1) 0) ∧
        ∀ i, c ≤ i → i < j → kt.getD (i + 1) 0 < t := by
  intro fuel
  induction fuel with
  | zero =>
    intro c j h
    simp [seekLoop] at h
  | succ f ih =>
    intro c j h
    simp only [seekLoop, sizeMinusOne_pos _ hK] at h
    by_cases hc : c = kt.length - 1
    · simp only [hc, if_true, Except.ok.injEq] at h
      subst h
      exact ⟨by omega, by omega, Or.inl rfl, fun i h1 h2 => by omega⟩
    · simp only [hc, if_false] at h
      cases hr : readAt kt (c + 1) with
      | error e => simp [hr] at h
      | ok next =>
        obtain ⟨hlt, hv⟩ := readAt_eq_ok kt (c + 1) next hr
        simp only [hr] at h
        by_cases ht : t > next
        · simp only [ht, if_true] at h
          obtain ⟨h1, h2, h3, h4⟩ := ih (c + 1) j h
          refine ⟨by omega, h2, h3, ?_⟩
          intro i hi1 hi2
          by_cases hic : i = c
          · subst hic
            rw [← hv]
            exact ht
          · exact h4 i (by omega) hi2
        · simp only [ht, if_false, Except.ok.injEq] at h
          subst h
          refine ⟨le_refl _, by omega, Or.inr ?_, fun i h1 h2 => by omega⟩
          rw [← hv]
          exact not_lt.mp ht

/-- From an index inside the track the seek loop returns, provided the fuel
covers the keyframes that are left. -/
theorem seekLoop_total (kt : List ℚ) (t : ℚ) :
    ∀ (fuel c : Nat), c < kt.length → kt.length ≤ c + fuel →
      ∃ j, seekLoop kt t fuel c = .ok j := by
  intro fuel
  induction fuel with
  | zero =>
    intro c h1 h2
    omega
  | succ f ih =>
    intro c h1 h2
    simp only [seekLoop, sizeMinusOne_pos _ (by omega : 0 < kt.length)]
    by_cases hc : c = kt.length - 1
    · exact ⟨c, by simp [hc]⟩
    · simp only [hc, if_false, readAt_ok kt (c + 1) (by omega)]
      by_cases ht : t > kt.getD (c + 1) 0
      · simp only [ht, if_true]
        exact ih (c + 1) (by omega) (by omega)
      · exact ⟨c, by rw [if_neg ht]⟩

/-- The fuel of `seek` is enough: more fuel never changes the result. -/
theorem seekLoop_fuel (kt : List ℚ) (t : ℚ) :
    ∀ (fuel fuel1 c : Nat), 1 ≤ fuel → 1 ≤ fuel1 →
      kt.length + 1 ≤ c + fuel → kt.length + 1 ≤ c + fuel1 →
      seekLoop kt t fuel c = seekLoop kt t fuel1 c := by
  intro fuel
  induction fuel with
  | zero =>
    intro fuel1 c h
    omega
  | succ f ih =>
    intro fuel1 c _ h1 h2 h3
    obtain ⟨f1, rfl⟩ : ∃ f1, fuel1 = f1 + 1 := ⟨fuel1 - 1, by omega⟩
    simp only [seekLoop]
    by_cases hc : c = sizeMinusOne kt.length
    · simp [hc]
    · simp only [hc, if_false]
      cases hr : readAt kt (c + 1) with
      | error e => rfl
      | ok next =>
        obtain ⟨hlt, _⟩ := readAt_eq_ok kt (c + 1) next hr
        by_cases ht : t > next
        · simp only [ht, if_true]
          exact ih f1 (c + 1) (by omega) (by omega) (by omega) (by omega)
        · simp [ht]

theorem seek_fuel (kt : List ℚ) (t : ℚ) (fuel c : Nat) (h : kt.length + 1 ≤ fuel) :
    seekLoop kt t fuel c = seek kt t c :=
  seekLoop_fuel kt t fuel (kt.length + 1) c (by omega) (by omega) (by omega) (by omega)

theorem seek_eq_ok (kt : List ℚ) (t : ℚ) (hK : 0 < kt.length) (c j : Nat)
    (h : seek kt t c = .ok j) :
    c ≤ j ∧ j < kt.length ∧ (j = kt.length - 1 ∨ t ≤ kt.getD (j + 1) 0) ∧
      ∀ i, c ≤ i → i < j → kt.getD (i + 1) 0 < t :=
  seekLoop_eq_ok kt t hK _ c j h

theorem seek_total (kt : List ℚ) (t : ℚ) (c : Nat) (h : c < kt.length) :
    ∃ j, seek kt t c = .ok j :=
  seekLoop_total kt t _ c h (by omega)

/-- Two indices that are both the first stopping index from `c` are equal. -/
theorem stop_unique (kt : List ℚ) (t : ℚ) (c j j1 : Nat)
    (hj : j = kt.length - 1 ∨ t ≤ kt.getD (j + 1) 0)
    (hjmin : ∀ i, c ≤ i → i < j → kt.getD (i + 1) 0 < t)
    (hcj : c ≤ j) (hjK : j < kt.length)
    (hj1 : j1 = kt.length - 1 ∨ t ≤ kt.getD (j1 + 1) 0)
    (hj1min : ∀ i, c ≤ i → i < j1 → kt.getD (i + 1) 0 < t)
    (hcj1 : c ≤ j1) (hj1K : j1 < kt.length) : j = j1 := by
  rcases Nat.lt_trichotomy j j1 with hlt | heq | hgt
  · have := hj1min j hcj hlt
    rcases hj with h | h
    · omega
    · exact absurd this (not_lt.mpr h)
  · exact heq
  · have := hjmin j1 hcj1 hgt
    rcases hj1 with h | h
    · omega
    · exact absurd this (not_lt.mpr h)

/-! ## One call of `advance` -/

theorem advance_of_reset (mesh : Mesh) (ct dt dur : ℚ) (h : dur < ct + dt) :
    advance mesh ct dt dur = (resetMesh mesh).map (fun mesh1 => (0, mesh1)) := by
  simp only [advance, render, updateMeshes, gt_iff_lt, h, if_true]
  cases resetMesh mesh with
  | error e => rfl
  | ok mesh1 => rfl

theorem advance_of_sample (mesh : Mesh) (ct dt dur : ℚ) (h : ct + dt ≤ dur) :
    advance mesh ct dt dur = (sampleMesh (ct + dt) mesh).map (fun mesh1 => (ct + dt, mesh1)) := by
  simp only [advance, render, updateMeshes, gt_iff_lt, not_lt.mpr h, if_false]
  cases sampleMesh (ct + dt) mesh with
  | error e => rfl
  | ok mesh1 => rfl

/-- The reset branch copies `weightsInit` over the front of `weights`. -/
theorem resetMesh_ok (mesh : Mesh) (hbuf : mesh.weightsInit.length ≤ mesh.weights.length) :
    resetMesh mesh = .ok { mesh with
      currentIndex := 0
      weights := mesh.weightsInit ++ mesh.weights.drop mesh.weightsInit.length } := by
  obtain ⟨w1, hw1, hl1, hin, hout⟩ :=
    writeWeights_ok (readAt mesh.weightsInit) (fun j => mesh.weightsInit.getD j 0)
      mesh.weightsInit.length 0 mesh.weights
      (fun j _ h2 => readAt_ok _ j (by omega)) (by omega)
  have hw : w1 = mesh.weightsInit ++ mesh.weights.drop mesh.weightsInit.length := by
    apply List.ext_getElem?
    intro j
    by_cases hj : j < mesh.weightsInit.length
    · rw [hin j (Nat.zero_le j) (by omega), List.getElem?_append_left hj]
      simp [List.getD, List.getElem?_eq_getElem hj]
    · rw [hout j (Or.inr (by omega)), List.getElem?_append_right (by omega),
        List.getElem?_drop]
      congr 1
      omega
  simp only [resetMesh, hw1, hw]

/-! ## The interpolation kernels -/

theorem sampleMesh_of (mesh : Mesh) (t : ℚ) (c : Nat) (w : List ℚ)
    (hseek : seek mesh.weightsTime t mesh.currentIndex = .ok c)
    (hint : interpolate t { mesh with currentIndex := c } = .ok w) :
    sampleMesh t mesh = .ok { mesh with currentIndex := c, weights := w } := by
  simp only [sampleMesh, hseek, hint]

theorem sampleMesh_eq_ok (mesh mesh1 : Mesh) (t : ℚ) (h : sampleMesh t mesh = .ok mesh1) :
    ∃ c w, seek mesh.weightsTime t mesh.currentIndex = .ok c ∧
      interpolate t { mesh with currentIndex := c } = .ok w ∧
      mesh1 = { mesh with currentIndex := c, weights := w } := by
  unfold sampleMesh at h
  cases hs : seek mesh.weightsTime t mesh.currentIndex with
  | error e => simp [hs] at h
  | ok c =>
    simp only [hs] at h
    cases hi : interpolate t { mesh with currentIndex := c } with
    | error e => simp [hi] at h
    | ok w =>
      simp only [hi, Except.ok.injEq] at h
      exact ⟨c, w, rfl, hi, h.symm⟩

/-- The "fill in with last index" loop writes keyframe `c` of an unpacked
buffer. -/
theorem lastIndex_ok (wd weights : List ℚ) (c n : Nat) (hbuf : n ≤ weights.length)
    (hdata : c * n + n ≤ wd.length) :
    ∃ w, writeWeights (lastIndexSample wd c n) n 0 weights = .ok w ∧
      w.length = weights.length ∧
      (∀ i, i < n → w[i]? = some (wd.getD (c * n + i) 0)) ∧
      (∀ i, n ≤ i → w[i]? = weights[i]?) := by
  obtain ⟨w, hw, hl, hin, hout⟩ :=
    writeWeights_ok (lastIndexSample wd c n) (fun i => wd.getD (c * n + i) 0) n 0 weights
      (fun j _ h2 => readAt_ok wd (c * n + j) (by omega)) (by omega)
  exact ⟨w, hw, hl, fun i hi => hin i (Nat.zero_le i) (by omega),
    fun i hi => hout i (Or.inr (by omega))⟩

theorem interpolate_step (mesh : Mesh) (t : ℚ) (hk : mesh.interpolation = .STEP) :
    interpolate t mesh =
      writeWeights (lastIndexSample mesh.weightsData mesh.currentIndex mesh.weightsInit.length)
        mesh.weightsInit.length 0 mesh.weights := by
  simp only [interpolate, hk]

theorem interpolate_linear_tail (mesh : Mesh) (t : ℚ) (hk : mesh.interpolation = .LINEAR)
    (hc : ¬ mesh.currentIndex < sizeMinusOne mesh.weightsTime.length) :
    interpolate t mesh =
      writeWeights (lastIndexSample mesh.weightsData mesh.currentIndex mesh.weightsInit.length)
        mesh.weightsInit.length 0 mesh.weights := by
  simp only [interpolate, hk, hc, if_false]

theorem interpolate_spline_tail (mesh : Mesh) (t : ℚ) (hk : mesh.interpolation = .CUBICSPLINE)
    (hc : ¬ mesh.currentIndex < sizeMinusOne mesh.weightsTime.length) :
    interpolate t mesh =
      writeWeights (lastIndexSample mesh.weightsData mesh.currentIndex mesh.weightsInit.length)
        mesh.weightsInit.length 0 mesh.weights := by
  simp only [interpolate, hk, hc, if_false]

/-- The `LINEAR` branch between two keyframes. -/
theorem interpolate_linear (mesh : Mesh) (t : ℚ) (hk : mesh.interpolation = .LINEAR)
    (hc : mesh.currentIndex + 1 < mesh.weightsTime.length)
    (hbuf : mesh.weightsInit.length ≤ mesh.weights.length)
    (hdata : (mesh.currentIndex + 2) * mesh.weightsInit.length ≤ mesh.weightsData.length) :
    ∃ w, interpolate t mesh = .ok w ∧ w.length = mesh.weights.length ∧
      (∀ i, i < mesh.weightsInit.length → w[i]? = some
        ((t - mesh.weightsTime.getD mesh.currentIndex 0) /
            (mesh.weightsTime.getD (mesh.currentIndex + 1) 0 -
              mesh.weightsTime.getD mesh.currentIndex 0) *
          (mesh.weightsData.getD ((mesh.currentIndex + 1) * mesh.weightsInit.length + i) 0 -
            mesh.weightsData.getD (mesh.currentIndex * mesh.weightsInit.length + i) 0) +
          mesh.weightsData.getD (mesh.currentIndex * mesh.weightsInit.length + i) 0)) ∧
      (∀ i, mesh.weightsInit.length ≤ i → w[i]? = mesh.weights[i]?) := by
  have hlt : mesh.currentIndex < sizeMinusOne mesh.weightsTime.length := by
    rw [sizeMinusOne_pos _ (by omega)]
    omega
  have hmul : (mesh.currentIndex + 2) * mesh.weightsInit.length =
      mesh.currentIndex * mesh.weightsInit.length + 2 * mesh.weightsInit.length := by ring
  have hmul1 : (mesh.currentIndex + 1) * mesh.weightsInit.length =
      mesh.currentIndex * mesh.weightsInit.length + mesh.weightsInit.length := by ring
  obtain ⟨w, hw, hl, hin, hout⟩ :=
    writeWeights_ok
      (linearSample mesh.weightsData mesh.currentIndex mesh.weightsInit.length
        ((t - mesh.weightsTime.getD mesh.currentIndex 0) /
          (mesh.weightsTime.getD (mesh.currentIndex + 1) 0 -
            mesh.weightsTime.getD mesh.currentIndex 0)))
      (fun i => (t - mesh.weightsTime.getD mesh.currentIndex 0) /
            (mesh.weightsTime.getD (mesh.currentIndex + 1) 0 -
              mesh.weightsTime.getD mesh.currentIndex 0) *
          (mesh.weightsData.getD ((mesh.currentIndex + 1) * mesh.weightsInit.length + i) 0 -
            mesh.weightsData.getD (mesh.currentIndex * mesh.weightsInit.length + i) 0) +
          mesh.weightsData.getD (mesh.currentIndex * mesh.weightsInit.length + i) 0)
      mesh.weightsInit.length 0 mesh.weights
      (fun j _ h2 => by
        simp only [linearSample,
          readAt_ok mesh.weightsData ((mesh.currentIndex + 1) * mesh.weightsInit.length + j)
            (by omega),
          readAt_ok mesh.weightsData (mesh.currentIndex * mesh.weightsInit.length + j)
            (by omega)])
      (by omega)
  refine ⟨w, ?_, hl, fun i hi => hin i (Nat.zero_le i) (by omega),
    fun i hi => hout i (Or.inr (by omega))⟩
  simp only [interpolate, hk, hlt, if_true, readAt_ok mesh.weightsTime mesh.currentIndex (by omega),
    readAt_ok mesh.weightsTime (mesh.currentIndex + 1) hc]
  exact hw

/-- The `CUBICSPLINE` branch between two keyframes, when its assertion holds. -/
theorem interpolate_spline (mesh : Mesh) (t : ℚ) (hk : mesh.interpolation = .CUBICSPLINE)
    (hc : mesh.currentIndex + 1 < mesh.weightsTime.length)
    (hbuf : mesh.weightsInit.length ≤ mesh.weights.length)
    (hdata : (mesh.currentIndex + 2) * mesh.weightsInit.length * 3 ≤ mesh.weightsData.length)
    (h0 : 0 ≤ (t - mesh.weightsTime.getD mesh.currentIndex 0) /
      (mesh.weightsTime.getD (mesh.currentIndex + 1) 0 -
        mesh.weightsTime.getD mesh.currentIndex 0))
    (h1 : (t - mesh.weightsTime.getD mesh.currentIndex 0) /
      (mesh.weightsTime.getD (mesh.currentIndex + 1) 0 -
        mesh.weightsTime.getD mesh.currentIndex 0) ≤ 1) :
    ∃ w, interpolate t mesh = .ok w ∧ w.length = mesh.weights.length ∧
      (∀ i, i < mesh.weightsInit.length → w[i]? = some
        (splineValue mesh.weightsData mesh.currentIndex mesh.weightsInit.length
          ((t - mesh.weightsTime.getD mesh.currentIndex 0) /
            (mesh.weightsTime.getD (mesh.currentIndex + 1) 0 -
              mesh.weightsTime.getD mesh.currentIndex 0))
          (mesh.weightsTime.getD (mesh.currentIndex + 1) 0 -
            mesh.weightsTime.getD mesh.currentIndex 0) i)) ∧
      (∀ i, mesh.weightsInit.length ≤ i → w[i]? = mesh.weights[i]?) := by
  have hlt : mesh.currentIndex < sizeMinusOne mesh.weightsTime.length := by
    rw [sizeMinusOne_pos _ (by omega)]
    omega
  have hmul : (mesh.currentIndex + 2) * mesh.weightsInit.length * 3 =
      mesh.currentIndex * mesh.weightsInit.length * 3 + 6 * mesh.weightsInit.length := by ring
  have hmul1 : (mesh.currentIndex + 1) * mesh.weightsInit.length * 3 =
      mesh.currentIndex * mesh.weightsInit.length * 3 + 3 * mesh.weightsInit.length := by ring
  obtain ⟨w, hw, hl, hin, hout⟩ :=
    writeWeights_ok
      (splineSample mesh.weightsData mesh.currentIndex mesh.weightsInit.length
        ((t - mesh.weightsTime.getD mesh.currentIndex 0) /
          (mesh.weightsTime.getD (mesh.currentIndex + 1) 0 -
            mesh.weightsTime.getD mesh.currentIndex 0))
        (mesh.weightsTime.getD (mesh.currentIndex + 1) 0 -
          mesh.weightsTime.getD mesh.currentIndex 0))
      (splineValue mesh.weightsData mesh.currentIndex mesh.weightsInit.length
          ((t - mesh.weightsTime.getD mesh.currentIndex 0) /
            (mesh.weightsTime.getD (mesh.currentIndex + 1) 0 -
              mesh.weightsTime.getD mesh.currentIndex 0))
          (mesh.weightsTime.getD (mesh.currentIndex + 1) 0 -
            mesh.weightsTime.getD mesh.currentIndex 0))
      mesh.weightsInit.length 0 mesh.weights
      (fun j _ h2 => by
        simp only [splineSample, splineValue,
          readAt_ok mesh.weightsData
            (mesh.currentIndex * mesh.weightsInit.length * 3 + mesh.weightsInit.length + j)
            (by omega),
          readAt_ok mesh.weightsData
            (mesh.currentIndex * mesh.weightsInit.length * 3 + mesh.weightsInit.length * 2 + j)
            (by omega),
          readAt_ok mesh.weightsData
            ((mesh.currentIndex + 1) * mesh.weightsInit.length * 3 + mesh.weightsInit.length + j)
            (by omega),
          readAt_ok mesh.weightsData
            ((mesh.currentIndex + 1) * mesh.weightsInit.length * 3 + j)
            (by omega)])
      (by omega)
  refine ⟨w, ?_, hl, fun i hi => hin i (Nat.zero_le i) (by omega),
    fun i hi => hout i (Or.inr (by omega))⟩
  simp only [interpolate, hk, hlt, if_true, readAt_ok mesh.weightsTime mesh.currentIndex (by omega),
    readAt_ok mesh.weightsTime (mesh.currentIndex + 1) hc, ge_iff_le, h0, h1, and_self]
  exact hw

/-! ## Claims -/

/-- C1 (loop reset): when `currentTime + deltaTime > clipDuration`, `advance`
returns time 0, index 0 and a weight array whose first `targetCount` entries
are `weightsInit` (the rest of the array is untouched), a result in which
neither `weightsTime` nor `weightsData` nor the sampler kind takes part; when
`currentTime + deltaTime ≤ clipDuration` the call is the seek-and-interpolate
branch at the updated time. -/
theorem advance_loop_reset (mesh : Mesh) (ct dt dur : ℚ)
    (hbuf : mesh.weightsInit.length ≤ mesh.weights.length) :
    (dur < ct + dt →
      ∃ w, advance mesh ct dt dur = .ok (0, { mesh with currentIndex := 0, weights := w }) ∧
        w = mesh.weightsInit ++ mesh.weights.drop mesh.weightsInit.length ∧
        ∀ i, i < mesh.weightsInit.length → w[i]? = mesh.weightsInit[i]?) ∧
    (ct + dt ≤ dur →
      advance mesh ct dt dur =
        (sampleMesh (ct + dt) mesh).map (fun mesh1 => (ct + dt, mesh1))) := by
  refine ⟨fun h => ⟨_, ?_, rfl, ?_⟩, fun h => advance_of_sample mesh ct dt dur h⟩
  · rw [advance_of_reset mesh ct dt dur h, resetMesh_ok mesh hbuf]
    rfl
  · intro i hi
    exact List.getElem?_append_left hi

theorem advance_loop_reset_witness :
    (scenarioMesh .LINEAR).weightsInit.length ≤ (scenarioMesh .LINEAR).weights.length ∧
    (2 : ℚ) < 3 / 2 + 1 ∧
    ∃ w, advance { scenarioMesh .LINEAR with currentIndex := 1, weights := [1 / 2, 1 / 2] }
        (3 / 2) 1 2 =
        .ok (0, { scenarioMesh .LINEAR with currentIndex := 0, weights := w }) ∧
      w = [0, 0] :=
  ⟨by decide, by norm_num,
    ((advance_loop_reset
      { scenarioMesh .LINEAR with currentIndex := 1, weights := [1 / 2, 1 / 2] }
      (3 / 2) 1 2 (by decide)).1 (by norm_num)).imp fun _ h => ⟨h.1, h.2.1⟩⟩

theorem seek_stay (kt : List ℚ) (t : ℚ) (c : Nat) (hc : c + 1 < kt.length)
    (ht : t ≤ kt.getD (c + 1) 0) : seek kt t c = .ok c := by
  obtain ⟨j, hj⟩ := seek_total kt t c (by omega)
  obtain ⟨h1, _, _, h4⟩ := seek_eq_ok kt t (by omega) c j hj
  have : j = c := by
    by_contra hne
    exact absurd (h4 c (le_refl c) (by omega)) (not_lt.mpr ht)
  rw [hj, this]

/-- C2 (LINEAR kernel): for a LINEAR track, a non-resetting `advance` whose
seek ends at `c < K - 1`, with `t0 = weightsTime[c] < t1 = weightsTime[c+1]`
and `mix = (currentTime - t0) / (t1 - t0)`, returns the updated time, index
`c` and `weights[i] = w0 + mix * (w1 - w0)` for every `i < targetCount`, where
`w0 = weightsData[c*targetCount+i]`, `w1 = weightsData[(c+1)*targetCount+i]`. -/
theorem advance_linear_kernel (mesh : Mesh) (ct dt dur : ℚ) (c : Nat)
    (hk : mesh.interpolation = .LINEAR)
    (hdata : mesh.weightsData.length = mesh.weightsTime.length * mesh.weightsInit.length)
    (hbuf : mesh.weightsInit.length ≤ mesh.weights.length)
    (hdur : ct + dt ≤ dur)
    (hseek : seek mesh.weightsTime (ct + dt) mesh.currentIndex = .ok c)
    (hc : c < mesh.weightsTime.length - 1)
    (_ht : mesh.weightsTime.getD c 0 < mesh.weightsTime.getD (c + 1) 0) :
    ∃ w, advance mesh ct dt dur = .ok (ct + dt, { mesh with currentIndex := c, weights := w }) ∧
      ∀ i, i < mesh.weightsInit.length →
        w[i]? = some
          (mesh.weightsData.getD (c * mesh.weightsInit.length + i) 0 +
            (ct + dt - mesh.weightsTime.getD c 0) /
                (mesh.weightsTime.getD (c + 1) 0 - mesh.weightsTime.getD c 0) *
              (mesh.weightsData.getD ((c + 1) * mesh.weightsInit.length + i) 0 -
                mesh.weightsData.getD (c * mesh.weightsInit.length + i) 0)) := by
  have hle : (c + 2) * mesh.weightsInit.length ≤ mesh.weightsData.length := by
    rw [hdata]
    exact Nat.mul_le_mul_right _ (by omega)
  obtain ⟨w, hw, _, hin, _⟩ :=
    interpolate_linear { mesh with currentIndex := c } (ct + dt) hk (by simpa using by omega)
      hbuf hle
  refine ⟨w, ?_, ?_⟩
  · rw [advance_of_sample mesh ct dt dur hdur, sampleMesh_of mesh (ct + dt) c w hseek hw]
    rfl
  · intro i hi
    rw [hin i hi, add_comm]

theorem advance_linear_kernel_witness :
    (∃ w, advance (scenarioMesh .LINEAR) 0 (1 / 2) 2 =
        .ok (0 + 1 / 2, { scenarioMesh .LINEAR with currentIndex := 0, weights := w }) ∧
      ∀ i, i < 2 → w[i]? = some
        ((scenarioMesh .LINEAR).weightsData.getD (0 * 2 + i) 0 +
          (0 + 1 / 2 - (scenarioMesh .LINEAR).weightsTime.getD 0 0) /
              ((scenarioMesh .LINEAR).weightsTime.getD (0 + 1) 0 -
                (scenarioMesh .LINEAR).weightsTime.getD 0 0) *
            ((scenarioMesh .LINEAR).weightsData.getD ((0 + 1) * 2 + i) 0 -
              (scenarioMesh .LINEAR).weightsData.getD (0 * 2 + i) 0))) ∧
    advance (scenarioMesh .LINEAR) 0 (1 / 2) 2 =
      .ok (1 / 2, { scenarioMesh .LINEAR with currentIndex := 0, weights := [1 / 2, 1 / 2] }) ∧
    advance { scenarioMesh .LINEAR with currentIndex := 0, weights := [1 / 2, 1 / 2] }
        (1 / 2) 1 2 =
      .ok (3 / 2, { scenarioMesh .LINEAR with currentIndex := 1, weights := [1 / 2, 1 / 2] }) :=
  ⟨advance_linear_kernel (scenarioMesh .LINEAR) 0 (1 / 2) 2 0 rfl (by decide) (by decide)
      (by norm_num)
      (by norm_num [seek, seekLoop, sizeMinusOne, readAt, scenarioMesh])
      (by decide) (by norm_num [scenarioMesh]),
    by
      norm_num [advance, render, updateMeshes, sampleMesh, seek, seekLoop, sizeMinusOne, readAt,
        interpolate, writeWeights, linearSample, scenarioMesh],
    by
      norm_num [advance, render, updateMeshes, sampleMesh, seek, seekLoop, sizeMinusOne, readAt,
        interpolate, writeWeights, linearSample, scenarioMesh]⟩

/-- The CUBICSPLINE kernel where its assertion holds: for a packed CUBICSPLINE
track, a non-resetting `advance` whose seek ends at `c < K - 1`, with
`tDelta = weightsTime[c+1] - weightsTime[c] > 0`, `weightsTime[c] ≤ currentTime`
and `t = (currentTime - weightsTime[c]) / tDelta`, returns
`weights[i] = (2t³-3t²+1) p0 + (t³-2t²+t) m0 + (-2t³+3t²) p1 + (t³-t²) m1`
for every `i < n`, with `p0`, `m0`, `p1`, `m1` read from the packed buffer. -/
theorem advance_spline_kernel (mesh : Mesh) (ct dt dur : ℚ) (c : Nat)
    (hk : mesh.interpolation = .CUBICSPLINE)
    (hdata : mesh.weightsData.length = mesh.weightsTime.length * mesh.weightsInit.length * 3)
    (hbuf : mesh.weightsInit.length ≤ mesh.weights.length)
    (hdur : ct + dt ≤ dur)
    (hseek : seek mesh.weightsTime (ct + dt) mesh.currentIndex = .ok c)
    (hc : c < mesh.weightsTime.length - 1)
    (ht : mesh.weightsTime.getD c 0 < mesh.weightsTime.getD (c + 1) 0)
    (hlo : mesh.weightsTime.getD c 0 ≤ ct + dt) :
    let n := mesh.weightsInit.length
    let tDelta := mesh.weightsTime.getD (c + 1) 0 - mesh.weightsTime.getD c 0
    let t := (ct + dt - mesh.weightsTime.getD c 0) / tDelta
    ∃ w, advance mesh ct dt dur = .ok (ct + dt, { mesh with currentIndex := c, weights := w }) ∧
      ∀ i, i < n →
        w[i]? = some
          ((2 * t ^ 3 - 3 * t ^ 2 + 1) * mesh.weightsData.getD (c * n * 3 + n + i) 0 +
            (t ^ 3 - 2 * t ^ 2 + t) * (mesh.weightsData.getD (c * n * 3 + 2 * n + i) 0 * tDelta) +
            (-2 * t ^ 3 + 3 * t ^ 2) * mesh.weightsData.getD ((c + 1) * n * 3 + n + i) 0 +
            (t ^ 3 - t ^ 2) * (mesh.weightsData.getD ((c + 1) * n * 3 + i) 0 * tDelta)) := by
  intro n tDelta t
  have hK : 0 < mesh.weightsTime.length := by omega
  have hle : (c + 2) * mesh.weightsInit.length * 3 ≤ mesh.weightsData.length := by
    rw [hdata]
    exact Nat.mul_le_mul_right _ (Nat.mul_le_mul_right _ (by omega))
  have hhi : ct + dt ≤ mesh.weightsTime.getD (c + 1) 0 := by
    obtain ⟨_, _, h3, _⟩ := seek_eq_ok mesh.weightsTime (ct + dt) hK _ c hseek
    rcases h3 with h | h
    · omega
    · exact h
  have hpos : 0 < tDelta := sub_pos.mpr ht
  have h0 : 0 ≤ t := div_nonneg (sub_nonneg.mpr hlo) hpos.le
  have h1 : t ≤ 1 := (div_le_one hpos).mpr (sub_le_sub_right hhi _)
  obtain ⟨w, hw, _, hin, _⟩ :=
    interpolate_spline { mesh with currentIndex := c } (ct + dt) hk (by simpa using by omega)
      hbuf hle h0 h1
  refine ⟨w, ?_, ?_⟩
  · rw [advance_of_sample mesh ct dt dur hdur, sampleMesh_of mesh (ct + dt) c w hseek hw]
    rfl
  · intro i hi
    rw [hin i hi]
    simp only [splineValue, Nat.mul_comm 2 n]

theorem advance_spline_kernel_scenario :
    ∃ w, advance { splineScenarioMesh with weights := [7] } (1 / 4) (1 / 4) 1 =
        .ok (1 / 4 + 1 / 4, { splineScenarioMesh with currentIndex := 0, weights := w }) ∧
      w[0]? = some (1 / 2) := by
  obtain ⟨w, hw, hv⟩ :=
    advance_spline_kernel { splineScenarioMesh with weights := [7] } (1 / 4) (1 / 4) 1 0 rfl
      (by decide) (by decide) (by norm_num)
      (by norm_num [seek, seekLoop, sizeMinusOne, readAt, splineScenarioMesh])
      (by decide) (by norm_num [splineScenarioMesh]) (by norm_num [splineScenarioMesh])
  refine ⟨w, hw, ?_⟩
  rw [hv 0 (by decide)]
  norm_num [splineScenarioMesh]

/-- C3 (CUBICSPLINE kernel, failing input): on a packed CUBICSPLINE track
whose first keyframe is at time 1, the advance to `currentTime = 1/2` does not
reset, its seek ends at `c = 0 < K - 1` and `tDelta = 1 > 0`, so that
`t = -1/2` and the kernel formula gives `weights[0] = 1`; the call instead
stops at the assertion `0 ≤ t ≤ 1` and writes no weight. -/
theorem advance_spline_kernel_stops :
    (lateMesh .CUBICSPLINE).weightsData.length =
        (lateMesh .CUBICSPLINE).weightsTime.length *
          (lateMesh .CUBICSPLINE).weightsInit.length * 3 ∧
      (0 : ℚ) + 1 / 2 ≤ 2 ∧
      seek (lateMesh .CUBICSPLINE).weightsTime (0 + 1 / 2) 0 = .ok 0 ∧
      0 < (lateMesh .CUBICSPLINE).weightsTime.length - 1 ∧
      (lateMesh .CUBICSPLINE).weightsTime.getD 0 0 < (lateMesh .CUBICSPLINE).weightsTime.getD 1 0 ∧
      splineValue (lateMesh .CUBICSPLINE).weightsData 0 1
        (((0 : ℚ) + 1 / 2 - (lateMesh .CUBICSPLINE).weightsTime.getD 0 0) /
          ((lateMesh .CUBICSPLINE).weightsTime.getD 1 0 -
            (lateMesh .CUBICSPLINE).weightsTime.getD 0 0))
        ((lateMesh .CUBICSPLINE).weightsTime.getD 1 0 -
          (lateMesh .CUBICSPLINE).weightsTime.getD 0 0) 0 = 1 ∧
      advance (lateMesh .CUBICSPLINE) 0 (1 / 2) 2 = .error .assertFailed := by
  refine ⟨by decide, by norm_num, ?_, by decide, by norm_num [lateMesh], ?_, ?_⟩
  · norm_num [seek, seekLoop, sizeMinusOne, readAt, lateMesh]
  · norm_num [splineValue, lateMesh]
  · norm_num [advance, render, updateMeshes, sampleMesh, seek, seekLoop, sizeMinusOne, readAt,
      interpolate, lateMesh]

/-! ## Runs of `advance` on a STEP track -/

theorem getD_lt_of_pairwise (l : List ℚ) (h : l.Pairwise (· < ·)) (i j : Nat) (hij : i < j)
    (hj : j < l.length) : l.getD i 0 < l.getD j 0 := by
  rw [List.getD_eq_getElem l 0 (by omega : i < l.length), List.getD_eq_getElem l 0 hj]
  exact List.pairwise_iff_getElem.mp h i j (by omega) hj hij

/-- One non-resetting call on a STEP track, from an index inside the track. -/
theorem advance_step_ok (mesh : Mesh) (ct dt dur : ℚ)
    (hk : mesh.interpolation = .STEP)
    (hdata : mesh.weightsData.length = mesh.weightsTime.length * mesh.weightsInit.length)
    (hbuf : mesh.weightsInit.length ≤ mesh.weights.length)
    (hc : mesh.currentIndex < mesh.weightsTime.length)
    (hdur : ct + dt ≤ dur) :
    ∃ c w, advance mesh ct dt dur = .ok (ct + dt, { mesh with currentIndex := c, weights := w }) ∧
      mesh.currentIndex ≤ c ∧ c < mesh.weightsTime.length ∧
      (c = mesh.weightsTime.length - 1 ∨ ct + dt ≤ mesh.weightsTime.getD (c + 1) 0) ∧
      (∀ i, mesh.currentIndex ≤ i → i < c → mesh.weightsTime.getD (i + 1) 0 < ct + dt) ∧
      w.length = mesh.weights.length ∧
      ∀ i, i < mesh.weightsInit.length →
        w[i]? = some (mesh.weightsData.getD (c * mesh.weightsInit.length + i) 0) := by
  obtain ⟨c, hseek⟩ := seek_total mesh.weightsTime (ct + dt) mesh.currentIndex hc
  obtain ⟨h1, h2, h3, h4⟩ := seek_eq_ok mesh.weightsTime (ct + dt) (by omega) _ c hseek
  have hle : c * mesh.weightsInit.length + mesh.weightsInit.length ≤ mesh.weightsData.length := by
    rw [hdata, ← Nat.succ_mul]
    exact Nat.mul_le_mul_right _ (by omega)
  obtain ⟨w, hw, hl, hin, _⟩ :=
    lastIndex_ok mesh.weightsData mesh.weights c mesh.weightsInit.length hbuf hle
  refine ⟨c, w, ?_, h1, h2, h3, h4, hl, hin⟩
  have hint : interpolate (ct + dt) { mesh with currentIndex := c } = .ok w := by
    rw [interpolate_step { mesh with currentIndex := c } _ hk]
    exact hw
  rw [advance_of_sample mesh ct dt dur hdur, sampleMesh_of mesh (ct + dt) c w hseek hint]
  rfl

/-- A run of non-resetting calls on a STEP track: the clock is the sum of the
steps, every keyframe passed lies strictly before the clock, and after at
least one call the index is a stopping index and the weights are those of
its keyframe. -/
theorem advanceAll_step (mesh : Mesh) (dur : ℚ)
    (hk : mesh.interpolation = .STEP)
    (hdata : mesh.weightsData.length = mesh.weightsTime.length * mesh.weightsInit.length)
    (hbuf : mesh.weightsInit.length ≤ mesh.weights.length) :
    ∀ (ds : List ℚ) (t : ℚ) (c : Nat) (w : List ℚ),
      c < mesh.weightsTime.length → w.length = mesh.weights.length →
      (∀ i, i < c → mesh.weightsTime.getD (i + 1) 0 < t) →
      (∀ x ∈ ds, 0 ≤ x) → t + ds.sum ≤ dur →
      (ds ≠ [] ∨
        ((c = mesh.weightsTime.length - 1 ∨ t ≤ mesh.weightsTime.getD (c + 1) 0) ∧
          ∀ i, i < mesh.weightsInit.length →
            w[i]? = some (mesh.weightsData.getD (c * mesh.weightsInit.length + i) 0))) →
      ∃ c1 w1,
        advanceAll dur ds (t, { mesh with currentIndex := c, weights := w }) =
          .ok (t + ds.sum, { mesh with currentIndex := c1, weights := w1 }) ∧
        c1 < mesh.weightsTime.length ∧
        (∀ i, i < c1 → mesh.weightsTime.getD (i + 1) 0 < t + ds.sum) ∧
        (c1 = mesh.weightsTime.length - 1 ∨ t + ds.sum ≤ mesh.weightsTime.getD (c1 + 1) 0) ∧
        ∀ i, i < mesh.weightsInit.length →
          w1[i]? = some (mesh.weightsData.getD (c1 * mesh.weightsInit.length + i) 0) := by
  intro ds
  induction ds with
  | nil =>
    intro t c w hc _ hpast _ _ hq
    rcases hq with hq | hq
    · exact absurd rfl hq
    · refine ⟨c, w, ?_, hc, ?_, ?_, hq.2⟩
      · simp [advanceAll]
      · simpa using hpast
      · simpa using hq.1
  | cons d ds ih =>
    intro t c w hc hw hpast hpos hsum _
    have hd : 0 ≤ d := hpos d (List.mem_cons_self d ds)
    have hds : ∀ x ∈ ds, 0 ≤ x := fun x hx => hpos x (List.mem_cons_of_mem d hx)
    have hdsum : 0 ≤ ds.sum := List.sum_nonneg hds
    rw [List.sum_cons] at hsum
    obtain ⟨c1, w1, hadv, h1, h2, h3, h4, h5, h6⟩ :=
      advance_step_ok { mesh with currentIndex := c, weights := w } t d dur hk hdata
        (by simpa [hw] using hbuf) hc (by linarith)
    have hpast1 : ∀ i, i < c1 → mesh.weightsTime.getD (i + 1) 0 < t + d := by
      intro i hi
      by_cases hic : i < c
      · have := hpast i hic
        linarith
      · exact h4 i (by simpa using not_lt.mp hic) hi
    obtain ⟨c2, w2, hrun, g1, g2, g3, g4⟩ :=
      ih (t + d) c1 w1 h2 (by simpa [hw] using h5) hpast1 hds (by linarith)
        (Or.inr ⟨h3, h6⟩)
    refine ⟨c2, w2, ?_, g1, ?_, ?_, g4⟩
    · simp only [advanceAll, hadv]
      rw [List.sum_cons, ← add_assoc]
      exact hrun
    · rw [List.sum_cons, ← add_assoc]
      exact g2
    · rw [List.sum_cons, ← add_assoc]
      exact g3

/-- C4 (STEP is constant between crossings): on a STEP track with strictly
increasing keyframe times, start at time 0 and index 0 (whatever the weight
array holds) and make at least one call of `advance`, all with `deltaTime ≥ 0`
and a total that stays within `clipDuration`; if the elapsed time `T` lies
strictly between `weightsTime[k]` and `weightsTime[k+1]`, the run returns time
`T`, index `k` and `weights[i] = weightsData[k*targetCount + i]` for every
`i < targetCount`: the output depends on `k` only, not on `T` or on how the
steps were split. -/
theorem step_constant_between_keyframes (mesh : Mesh) (dur d : ℚ) (ds : List ℚ) (k : Nat)
    (hk : mesh.interpolation = .STEP)
    (hinc : mesh.weightsTime.Pairwise (· < ·))
    (hdata : mesh.weightsData.length = mesh.weightsTime.length * mesh.weightsInit.length)
    (hbuf : mesh.weightsInit.length ≤ mesh.weights.length)
    (hstart : mesh.currentIndex = 0)
    (hpos : ∀ x ∈ d :: ds, 0 ≤ x)
    (hsum : (d :: ds).sum ≤ dur)
    (hkK : k < mesh.weightsTime.length - 1)
    (hlo : mesh.weightsTime.getD k 0 < (d :: ds).sum)
    (hhi : (d :: ds).sum < mesh.weightsTime.getD (k + 1) 0) :
    ∃ w, advanceAll dur (d :: ds) (0, mesh) =
        .ok ((d :: ds).sum, { mesh with currentIndex := k, weights := w }) ∧
      ∀ i, i < mesh.weightsInit.length →
        w[i]? = some (mesh.weightsData.getD (k * mesh.weightsInit.length + i) 0) := by
  obtain ⟨c1, w1, hrun, g1, g2, g3, g4⟩ :=
    advanceAll_step mesh dur hk hdata hbuf (d :: ds) 0 0 mesh.weights (by omega) rfl
      (fun i hi => by omega) hpos (by simpa using hsum) (Or.inl (List.cons_ne_nil d ds))
  rw [zero_add] at hrun g2 g3
  have hpast : ∀ i, 0 ≤ i → i < k → mesh.weightsTime.getD (i + 1) 0 < (d :: ds).sum := by
    intro i _ hi
    by_cases hik : i + 1 = k
    · rw [hik]
      exact hlo
    · exact lt_trans (getD_lt_of_pairwise _ hinc (i + 1) k (by omega) (by omega)) hlo
  have hck : c1 = k :=
    stop_unique mesh.weightsTime (d :: ds).sum 0 c1 k g3 (fun i _ hi => g2 i hi)
      (Nat.zero_le _) g1 (Or.inr hhi.le) hpast (Nat.zero_le _) (by omega)
  subst hck
  refine ⟨w1, ?_, g4⟩
  have hm : ({ mesh with currentIndex := 0, weights := mesh.weights } : Mesh) = mesh := by
    cases mesh
    simp only [Mesh.mk.injEq, true_and, and_true]
    exact hstart.symm
  rw [← hrun, hm]

theorem step_constant_between_keyframes_witness :
    (∃ w, advanceAll 2 [1 / 2, 1] (0, scenarioMesh .STEP) =
        .ok (([1 / 2, 1] : List ℚ).sum, { scenarioMesh .STEP with currentIndex := 1, weights := w }) ∧
      w[0]? = some 1 ∧ w[1]? = some 1) ∧
    advanceAll 2 [1 / 2] (0, scenarioMesh .STEP) =
      .ok (1 / 2, { scenarioMesh .STEP with currentIndex := 0, weights := [0, 0] }) ∧
    advanceAll 2 [1 / 2, 1] (0, scenarioMesh .STEP) =
      .ok (3 / 2, { scenarioMesh .STEP with currentIndex := 1, weights := [1, 1] }) := by
  refine ⟨?_, ?_, ?_⟩
  · obtain ⟨w, hw, hv⟩ :=
      step_constant_between_keyframes (scenarioMesh .STEP) 2 (1 / 2) [1] 1 rfl
        (by norm_num [scenarioMesh]) (by decide) (by decide) rfl
        (by
          intro x hx
          simp only [List.mem_cons, List.mem_singleton, List.mem_nil_iff, or_false] at hx
          rcases hx with rfl | rfl <;> norm_num)
        (by norm_num) (by decide) (by norm_num [scenarioMesh]) (by norm_num [scenarioMesh])
    refine ⟨w, hw, ?_, ?_⟩
    · rw [hv 0 (by decide)]
      norm_num [scenarioMesh]
    · rw [hv 1 (by decide)]
      norm_num [scenarioMesh]
  · norm_num [advanceAll, advance, render, updateMeshes, sampleMesh, seek, seekLoop, sizeMinusOne,
      readAt, interpolate, writeWeights, lastIndexSample, scenarioMesh]
  · norm_num [advanceAll, advance, render, updateMeshes, sampleMesh, seek, seekLoop, sizeMinusOne,
      readAt, interpolate, writeWeights, lastIndexSample, scenarioMesh]

/-- C5 (tail of track, what the code does): when a non-resetting `advance`
ends its seek at the last keyframe `K - 1`, every supported kind writes
`weights[i] = weightsData[(K-1)*targetCount + i]`. For STEP and LINEAR this is
the weight of the last keyframe; for a packed CUBICSPLINE buffer it is not the
weight slot `(K-1)*targetCount*3 + targetCount + i`. -/
theorem advance_tail_of_track (mesh : Mesh) (ct dt dur : ℚ)
    (hkind : mesh.interpolation ≠ .UNSUPPORTED)
    (hK : 0 < mesh.weightsTime.length)
    (hdata : mesh.weightsData.length =
      mesh.weightsTime.length * mesh.weightsInit.length *
        (if mesh.interpolation = .CUBICSPLINE then 3 else 1))
    (hbuf : mesh.weightsInit.length ≤ mesh.weights.length)
    (hdur : ct + dt ≤ dur)
    (hseek : seek mesh.weightsTime (ct + dt) mesh.currentIndex =
      .ok (mesh.weightsTime.length - 1)) :
    ∃ w, advance mesh ct dt dur =
        .ok (ct + dt, { mesh with currentIndex := mesh.weightsTime.length - 1, weights := w }) ∧
      ∀ i, i < mesh.weightsInit.length →
        w[i]? = some
          (mesh.weightsData.getD ((mesh.weightsTime.length - 1) * mesh.weightsInit.length + i) 0) := by
  have hle : (mesh.weightsTime.length - 1) * mesh.weightsInit.length + mesh.weightsInit.length ≤
      mesh.weightsData.length := by
    rw [hdata, ← Nat.succ_mul]
    have h1 : (mesh.weightsTime.length - 1).succ = mesh.weightsTime.length := by omega
    rw [h1]
    exact Nat.le_mul_of_pos_right _ (by split <;> omega)
  obtain ⟨w, hw, _, hin, _⟩ :=
    lastIndex_ok mesh.weightsData mesh.weights (mesh.weightsTime.length - 1)
      mesh.weightsInit.length hbuf hle
  have hnot : ¬ (mesh.weightsTime.length - 1 < sizeMinusOne mesh.weightsTime.length) := by
    rw [sizeMinusOne_pos _ hK]
    omega
  have hint : interpolate (ct + dt) { mesh with currentIndex := mesh.weightsTime.length - 1 } =
      .ok w := by
    have hcases : mesh.interpolation = .LINEAR ∨ mesh.interpolation = .STEP ∨
        mesh.interpolation = .CUBICSPLINE := by
      cases h : mesh.interpolation
      · exact Or.inl rfl
      · exact Or.inr (Or.inl rfl)
      · exact Or.inr (Or.inr rfl)
      · exact absurd h hkind
    rcases hcases with hi | hi | hi
    · rw [interpolate_linear_tail { mesh with currentIndex := mesh.weightsTime.length - 1 } _ hi hnot]
      exact hw
    · rw [interpolate_step { mesh with currentIndex := mesh.weightsTime.length - 1 } _ hi]
      exact hw
    · rw [interpolate_spline_tail { mesh with currentIndex := mesh.weightsTime.length - 1 } _ hi hnot]
      exact hw
  refine ⟨w, ?_, hin⟩
  rw [advance_of_sample mesh ct dt dur hdur, sampleMesh_of mesh (ct + dt) _ w hseek hint]
  rfl

/-- C5 (failing input): on the spline scenario track with a clip of duration 2,
the advance to `currentTime = 3/2` ends its seek at the last keyframe and
writes 0, the weight of keyframe 0, while the weight stored for the last
keyframe is 1. -/
theorem advance_tail_of_track_witness :
    (∃ w, advance splineScenarioMesh 0 (3 / 2) 2 =
        .ok (0 + 3 / 2, { splineScenarioMesh with currentIndex := 1, weights := w }) ∧
      w[0]? = some 0) ∧
    advance splineScenarioMesh 0 (3 / 2) 2 =
      .ok (3 / 2, { splineScenarioMesh with currentIndex := 1, weights := [0] }) ∧
    splineScenarioMesh.weightsData.getD ((2 - 1) * 1 * 3 + 1 + 0) 0 = 1 := by
  refine ⟨?_, ?_, ?_⟩
  · obtain ⟨w, hw, hv⟩ :=
      advance_tail_of_track splineScenarioMesh 0 (3 / 2) 2 (by decide) (by decide) (by decide)
        (by decide) (by norm_num)
        (by norm_num [seek, seekLoop, sizeMinusOne, readAt, splineScenarioMesh])
    refine ⟨w, hw, ?_⟩
    rw [hv 0 (by decide)]
    norm_num [splineScenarioMesh]
  · norm_num [advance, render, updateMeshes, sampleMesh, seek, seekLoop, sizeMinusOne,
      readAt, interpolate, writeWeights, lastIndexSample, splineScenarioMesh]
  · norm_num [splineScenarioMesh]

/-- C6 (keyframe seek): from an index `c0 ≤ K - 1` of a track with `K ≥ 1`, the
seek of a non-resetting `advance` returns the least `j ≥ c0` with `j = K - 1` or
`currentTime ≤ weightsTime[j+1]`; it stays at `c0` when
`currentTime ≤ weightsTime[c0+1]`, and every state the call returns has that
index. -/
theorem seek_least_stop (mesh : Mesh) (ct dt dur : ℚ)
    (hK : 1 ≤ mesh.weightsTime.length)
    (hc : mesh.currentIndex ≤ mesh.weightsTime.length - 1)
    (hdur : ct + dt ≤ dur) :
    ∃ j, seek mesh.weightsTime (ct + dt) mesh.currentIndex = .ok j ∧
      mesh.currentIndex ≤ j ∧
      (j = mesh.weightsTime.length - 1 ∨ ct + dt ≤ mesh.weightsTime.getD (j + 1) 0) ∧
      (∀ i, mesh.currentIndex ≤ i → i < j →
        ¬ (i = mesh.weightsTime.length - 1 ∨ ct + dt ≤ mesh.weightsTime.getD (i + 1) 0)) ∧
      (ct + dt ≤ mesh.weightsTime.getD (mesh.currentIndex + 1) 0 → j = mesh.currentIndex) ∧
      ∀ r, advance mesh ct dt dur = .ok r → r.2.currentIndex = j := by
  obtain ⟨j, hj⟩ := seek_total mesh.weightsTime (ct + dt) mesh.currentIndex (by omega)
  obtain ⟨h1, h2, h3, h4⟩ := seek_eq_ok mesh.weightsTime (ct + dt) (by omega) _ j hj
  refine ⟨j, hj, h1, h3, ?_, ?_, ?_⟩
  · intro i hi1 hi2 hstop
    rcases hstop with h | h
    · omega
    · exact absurd (h4 i hi1 hi2) (not_lt.mpr h)
  · intro hle
    by_contra hne
    exact absurd (h4 mesh.currentIndex (le_refl _) (by omega)) (not_lt.mpr hle)
  · intro r hr
    rw [advance_of_sample mesh ct dt dur hdur] at hr
    cases hs : sampleMesh (ct + dt) mesh with
    | error e => simp [hs, Except.map] at hr
    | ok mesh1 =>
      simp only [hs, Except.map, Except.ok.injEq] at hr
      obtain ⟨c, w, hc1, _, hm⟩ := sampleMesh_eq_ok mesh mesh1 (ct + dt) hs
      rw [hj, Except.ok.injEq] at hc1
      rw [← hr, hm, hc1]

theorem seek_least_stop_witness :
    ∃ j, seek (scenarioMesh .STEP).weightsTime (0 + 5 / 2) (scenarioMesh .STEP).currentIndex =
        .ok j ∧ j = 2 ∧
      advance (scenarioMesh .STEP) 0 (5 / 2) 3 =
        .ok (5 / 2, { scenarioMesh .STEP with currentIndex := 2, weights := [0, 0] }) := by
  obtain ⟨j, hj, _, _, _, _, hr⟩ :=
    seek_least_stop (scenarioMesh .STEP) 0 (5 / 2) 3 (by decide) (by decide) (by norm_num)
  have hadv : advance (scenarioMesh .STEP) 0 (5 / 2) 3 =
      .ok (5 / 2, { scenarioMesh .STEP with currentIndex := 2, weights := [0, 0] }) := by
    norm_num [advance, render, updateMeshes, sampleMesh, seek, seekLoop, sizeMinusOne,
      readAt, interpolate, writeWeights, lastIndexSample, scenarioMesh]
  exact ⟨j, hj, (hr _ hadv).symm, hadv⟩

/-! ## Keyframe boundaries -/

/-- C7 (LINEAR continuity at keyframe boundaries): on a LINEAR track with
strictly increasing keyframe times and `c < K - 1`, a non-resetting `advance`
from index `c` that lands on `weightsTime[c]` writes
`weights[i] = weightsData[c*targetCount + i]`, and one that lands on
`weightsTime[c+1]` writes `weights[i] = weightsData[(c+1)*targetCount + i]`,
for every `i < targetCount`; the index stays `c` in both cases. -/
theorem linear_continuity (mesh : Mesh) (ct dt dur : ℚ) (c : Nat)
    (hk : mesh.interpolation = .LINEAR)
    (hinc : mesh.weightsTime.Pairwise (· < ·))
    (hdata : mesh.weightsData.length = mesh.weightsTime.length * mesh.weightsInit.length)
    (hbuf : mesh.weightsInit.length ≤ mesh.weights.length)
    (hidx : mesh.currentIndex = c)
    (hc : c < mesh.weightsTime.length - 1)
    (hdur : ct + dt ≤ dur) :
    (ct + dt = mesh.weightsTime.getD c 0 →
      ∃ w, advance mesh ct dt dur =
          .ok (ct + dt, { mesh with currentIndex := c, weights := w }) ∧
        ∀ i, i < mesh.weightsInit.length →
          w[i]? = some (mesh.weightsData.getD (c * mesh.weightsInit.length + i) 0)) ∧
    (ct + dt = mesh.weightsTime.getD (c + 1) 0 →
      ∃ w, advance mesh ct dt dur =
          .ok (ct + dt, { mesh with currentIndex := c, weights := w }) ∧
        ∀ i, i < mesh.weightsInit.length →
          w[i]? = some (mesh.weightsData.getD ((c + 1) * mesh.weightsInit.length + i) 0)) := by
  have ht : mesh.weightsTime.getD c 0 < mesh.weightsTime.getD (c + 1) 0 :=
    getD_lt_of_pairwise _ hinc c (c + 1) (by omega) (by omega)
  have hle : (c + 2) * mesh.weightsInit.length ≤ mesh.weightsData.length := by
    rw [hdata]
    exact Nat.mul_le_mul_right _ (by omega)
  have hstay : ct + dt ≤ mesh.weightsTime.getD (c + 1) 0 →
      seek mesh.weightsTime (ct + dt) mesh.currentIndex = .ok c := by
    intro h
    rw [hidx]
    exact seek_stay _ _ c (by omega) h
  obtain ⟨w, hw, _, hin, _⟩ :=
    interpolate_linear { mesh with currentIndex := c } (ct + dt) hk (by simpa using by omega)
      hbuf hle
  have hadv : ct + dt ≤ mesh.weightsTime.getD (c + 1) 0 →
      advance mesh ct dt dur = .ok (ct + dt, { mesh with currentIndex := c, weights := w }) := by
    intro h
    rw [advance_of_sample mesh ct dt dur hdur, sampleMesh_of mesh (ct + dt) c w (hstay h) hw]
    rfl
  constructor
  · intro h0
    refine ⟨w, hadv (by rw [h0]; exact ht.le), ?_⟩
    intro i hi
    rw [hin i hi]
    simp only [h0, sub_self, zero_div, zero_mul, zero_add]
  · intro h1
    refine ⟨w, hadv h1.le, ?_⟩
    intro i hi
    rw [hin i hi]
    have hne : mesh.weightsTime.getD (c + 1) 0 - mesh.weightsTime.getD c 0 ≠ 0 :=
      ne_of_gt (sub_pos.mpr ht)
    simp only [h1, div_self hne, one_mul, sub_add_cancel]

theorem linear_continuity_witness :
    (∃ w, advance (scenarioMesh .LINEAR) 0 0 2 =
        .ok (0 + 0, { scenarioMesh .LINEAR with currentIndex := 0, weights := w }) ∧
      w[0]? = some 0 ∧ w[1]? = some 0) ∧
    (∃ w, advance (scenarioMesh .LINEAR) 0 1 2 =
        .ok (0 + 1, { scenarioMesh .LINEAR with currentIndex := 0, weights := w }) ∧
      w[0]? = some 1 ∧ w[1]? = some 1) := by
  have h0 := linear_continuity (scenarioMesh .LINEAR) 0 0 2 0 rfl (by norm_num [scenarioMesh])
    (by decide) (by decide) rfl (by decide) (by norm_num)
  have h1 := linear_continuity (scenarioMesh .LINEAR) 0 1 2 0 rfl (by norm_num [scenarioMesh])
    (by decide) (by decide) rfl (by decide) (by norm_num)
  constructor
  · obtain ⟨w, hw, hv⟩ := h0.1 (by norm_num [scenarioMesh])
    refine ⟨w, hw, ?_, ?_⟩
    · rw [hv 0 (by decide)]
      norm_num [scenarioMesh]
    · rw [hv 1 (by decide)]
      norm_num [scenarioMesh]
  · obtain ⟨w, hw, hv⟩ := h1.2 (by norm_num [scenarioMesh])
    refine ⟨w, hw, ?_, ?_⟩
    · rw [hv 0 (by decide)]
      norm_num [scenarioMesh]
    · rw [hv 1 (by decide)]
      norm_num [scenarioMesh]

/-- C8 (Hermite boundary condition): for a packed CUBICSPLINE track and
`c < K - 1`, whatever the tangents and the keyframe spacing, the spline loop
body at `t = 0` yields the weight of keyframe `c` and at `t = 1` the weight of
keyframe `c + 1`; accordingly a non-resetting `advance` from index `c` that
lands on `weightsTime[c]` (resp. `weightsTime[c+1]`, with
`weightsTime[c] < weightsTime[c+1]`) writes these values for every
`i < targetCount`. -/
theorem hermite_boundary (mesh : Mesh) (ct dt dur : ℚ) (c : Nat)
    (hk : mesh.interpolation = .CUBICSPLINE)
    (hdata : mesh.weightsData.length = mesh.weightsTime.length * mesh.weightsInit.length * 3)
    (hbuf : mesh.weightsInit.length ≤ mesh.weights.length)
    (hidx : mesh.currentIndex = c)
    (hc : c < mesh.weightsTime.length - 1)
    (ht : mesh.weightsTime.getD c 0 < mesh.weightsTime.getD (c + 1) 0)
    (hdur : ct + dt ≤ dur) :
    (∀ i, i < mesh.weightsInit.length → ∀ tDelta : ℚ,
      splineSample mesh.weightsData c mesh.weightsInit.length 0 tDelta i =
          .ok (mesh.weightsData.getD
            (c * mesh.weightsInit.length * 3 + mesh.weightsInit.length + i) 0) ∧
        splineSample mesh.weightsData c mesh.weightsInit.length 1 tDelta i =
          .ok (mesh.weightsData.getD
            ((c + 1) * mesh.weightsInit.length * 3 + mesh.weightsInit.length + i) 0)) ∧
    (ct + dt = mesh.weightsTime.getD c 0 →
      ∃ w, advance mesh ct dt dur =
          .ok (ct + dt, { mesh with currentIndex := c, weights := w }) ∧
        ∀ i, i < mesh.weightsInit.length →
          w[i]? = some (mesh.weightsData.getD
            (c * mesh.weightsInit.length * 3 + mesh.weightsInit.length + i) 0)) ∧
    (ct + dt = mesh.weightsTime.getD (c + 1) 0 →
      ∃ w, advance mesh ct dt dur =
          .ok (ct + dt, { mesh with currentIndex := c, weights := w }) ∧
        ∀ i, i < mesh.weightsInit.length →
          w[i]? = some (mesh.weightsData.getD
            ((c + 1) * mesh.weightsInit.length * 3 + mesh.weightsInit.length + i) 0)) := by
  have hle : (c + 2) * mesh.weightsInit.length * 3 ≤ mesh.weightsData.length := by
    rw [hdata]
    exact Nat.mul_le_mul_right _ (Nat.mul_le_mul_right _ (by omega))
  have hmul : (c + 2) * mesh.weightsInit.length * 3 =
      c * mesh.weightsInit.length * 3 + 6 * mesh.weightsInit.length := by ring
  have hmul1 : (c + 1) * mesh.weightsInit.length * 3 =
      c * mesh.weightsInit.length * 3 + 3 * mesh.weightsInit.length := by ring
  have hpos : 0 < mesh.weightsTime.getD (c + 1) 0 - mesh.weightsTime.getD c 0 := sub_pos.mpr ht
  have hstay : ct + dt ≤ mesh.weightsTime.getD (c + 1) 0 →
      seek mesh.weightsTime (ct + dt) mesh.currentIndex = .ok c := by
    intro h
    rw [hidx]
    exact seek_stay _ _ c (by omega) h
  have hrun : mesh.weightsTime.getD c 0 ≤ ct + dt → ct + dt ≤ mesh.weightsTime.getD (c + 1) 0 →
      ∃ w, advance mesh ct dt dur =
          .ok (ct + dt, { mesh with currentIndex := c, weights := w }) ∧
        ∀ i, i < mesh.weightsInit.length → w[i]? = some
          (splineValue mesh.weightsData c mesh.weightsInit.length
            ((ct + dt - mesh.weightsTime.getD c 0) /
              (mesh.weightsTime.getD (c + 1) 0 - mesh.weightsTime.getD c 0))
            (mesh.weightsTime.getD (c + 1) 0 - mesh.weightsTime.getD c 0) i) := by
    intro hlo hhi
    obtain ⟨w, hw, _, hin, _⟩ :=
      interpolate_spline { mesh with currentIndex := c } (ct + dt) hk (by simpa using by omega)
        hbuf hle (div_nonneg (sub_nonneg.mpr hlo) hpos.le)
        ((div_le_one hpos).mpr (sub_le_sub_right hhi _))
    refine ⟨w, ?_, hin⟩
    rw [advance_of_sample mesh ct dt dur hdur, sampleMesh_of mesh (ct + dt) c w (hstay hhi) hw]
    rfl
  refine ⟨?_, ?_, ?_⟩
  · intro i hi tDelta
    constructor
    · simp only [splineSample,
        readAt_ok mesh.weightsData (c * mesh.weightsInit.length * 3 + mesh.weightsInit.length + i)
          (by omega),
        readAt_ok mesh.weightsData
          (c * mesh.weightsInit.length * 3 + mesh.weightsInit.length * 2 + i) (by omega),
        readAt_ok mesh.weightsData
          ((c + 1) * mesh.weightsInit.length * 3 + mesh.weightsInit.length + i) (by omega),
        readAt_ok mesh.weightsData ((c + 1) * mesh.weightsInit.length * 3 + i) (by omega)]
      congr 1
      ring
    · simp only [splineSample,
        readAt_ok mesh.weightsData (c * mesh.weightsInit.length * 3 + mesh.weightsInit.length + i)
          (by omega),
        readAt_ok mesh.weightsData
          (c * mesh.weightsInit.length * 3 + mesh.weightsInit.length * 2 + i) (by omega),
        readAt_ok mesh.weightsData
          ((c + 1) * mesh.weightsInit.length * 3 + mesh.weightsInit.length + i) (by omega),
        readAt_ok mesh.weightsData ((c + 1) * mesh.weightsInit.length * 3 + i) (by omega)]
      congr 1
      ring
  · intro h0
    obtain ⟨w, hw, hv⟩ := hrun h0.ge (by rw [h0]; exact ht.le)
    refine ⟨w, hw, ?_⟩
    intro i hi
    rw [hv i hi]
    simp only [h0, sub_self, zero_div, splineValue]
    congr 1
    ring
  · intro h1
    obtain ⟨w, hw, hv⟩ := hrun (by rw [h1]; exact ht.le) h1.le
    refine ⟨w, hw, ?_⟩
    intro i hi
    rw [hv i hi]
    simp only [h1, div_self (ne_of_gt hpos), splineValue]
    congr 1
    ring

theorem hermite_boundary_witness :
    (∃ w, advance splineScenarioMesh 0 0 1 =
        .ok (0 + 0, { splineScenarioMesh with currentIndex := 0, weights := w }) ∧
      w[0]? = some 0) ∧
    (∃ w, advance splineScenarioMesh 0 1 1 =
        .ok (0 + 1, { splineScenarioMesh with currentIndex := 0, weights := w }) ∧
      w[0]? = some 1) := by
  have h0 := hermite_boundary splineScenarioMesh 0 0 1 0 rfl (by decide) (by decide) rfl
    (by decide) (by norm_num [splineScenarioMesh]) (by norm_num)
  have h1 := hermite_boundary splineScenarioMesh 0 1 1 0 rfl (by decide) (by decide) rfl
    (by decide) (by norm_num [splineScenarioMesh]) (by norm_num)
  constructor
  · obtain ⟨w, hw, hv⟩ := h0.2.1 (by norm_num [splineScenarioMesh])
    refine ⟨w, hw, ?_⟩
    rw [hv 0 (by decide)]
    norm_num [splineScenarioMesh]
  · obtain ⟨w, hw, hv⟩ := h1.2.2 (by norm_num [splineScenarioMesh])
    refine ⟨w, hw, ?_⟩
    rw [hv 0 (by decide)]
    norm_num [splineScenarioMesh]

/-! ## Reachable states -/

theorem seekLoop_le (kt : List ℚ) (t : ℚ) :
    ∀ (fuel c j : Nat), seekLoop kt t fuel c = .ok j → c ≤ j := by
  intro fuel
  induction fuel with
  | zero =>
    intro c j h
    simp [seekLoop] at h
  | succ f ih =>
    intro c j h
    simp only [seekLoop] at h
    by_cases hc : c = sizeMinusOne kt.length
    · simp only [hc, if_true, Except.ok.injEq] at h
      omega
    · simp only [hc, if_false] at h
      cases hr : readAt kt (c + 1) with
      | error e => simp [hr] at h
      | ok next =>
        simp only [hr] at h
        by_cases ht : t > next
        · simp only [ht, if_true] at h
          have := ih (c + 1) j h
          omega
        · simp only [ht, if_false, Except.ok.injEq] at h
          omega

/-- What a returning `advance` did: either the reset branch or the seek and
the interpolation at the updated time. -/
theorem advance_eq_ok (mesh : Mesh) (ct dt dur : ℚ) (r : ℚ × Mesh)
    (h : advance mesh ct dt dur = .ok r) :
    (dur < ct + dt ∧ ∃ w, r = (0, { mesh with currentIndex := 0, weights := w }) ∧
      writeWeights (readAt mesh.weightsInit) mesh.weightsInit.length 0 mesh.weights = .ok w) ∨
    (ct + dt ≤ dur ∧ ∃ c w, r = (ct + dt, { mesh with currentIndex := c, weights := w }) ∧
      seek mesh.weightsTime (ct + dt) mesh.currentIndex = .ok c ∧
      interpolate (ct + dt) { mesh with currentIndex := c } = .ok w) := by
  by_cases hd : dur < ct + dt
  · left
    refine ⟨hd, ?_⟩
    rw [advance_of_reset mesh ct dt dur hd] at h
    unfold resetMesh at h
    cases hw : writeWeights (readAt mesh.weightsInit) mesh.weightsInit.length 0 mesh.weights with
    | error e => simp [hw, Except.map] at h
    | ok w =>
      simp only [hw, Except.map, Except.ok.injEq] at h
      exact ⟨w, h.symm, rfl⟩
  · right
    refine ⟨not_lt.mp hd, ?_⟩
    rw [advance_of_sample mesh ct dt dur (not_lt.mp hd)] at h
    cases hs : sampleMesh (ct + dt) mesh with
    | error e => simp [hs, Except.map] at h
    | ok mesh1 =>
      simp only [hs, Except.map, Except.ok.injEq] at h
      obtain ⟨c, w, h1, h2, h3⟩ := sampleMesh_eq_ok mesh mesh1 (ct + dt) hs
      exact ⟨c, w, by rw [← h, h3], h1, h2⟩

/-- Along any run of calls with non-negative steps that starts with the clock
at or after 0 and only passed keyframes behind the playhead, the track's
keyframe times are unchanged, the clock stays at or after 0 and every
keyframe passed lies strictly before the clock. -/
theorem advanceAll_passed (kt : List ℚ) (hK : 0 < kt.length) (dur : ℚ) :
    ∀ (ds : List ℚ) (s0 s : ℚ × Mesh),
      s0.2.weightsTime = kt → 0 ≤ s0.1 →
      (∀ i, i < s0.2.currentIndex → kt.getD (i + 1) 0 < s0.1) →
      (∀ x ∈ ds, 0 ≤ x) → advanceAll dur ds s0 = .ok s →
      s.2.weightsTime = kt ∧ 0 ≤ s.1 ∧
        ∀ i, i < s.2.currentIndex → kt.getD (i + 1) 0 < s.1 := by
  intro ds
  induction ds with
  | nil =>
    intro s0 s h1 h2 h3 _ hrun
    simp only [advanceAll, Except.ok.injEq] at hrun
    subst hrun
    exact ⟨h1, h2, h3⟩
  | cons d ds ih =>
    intro s0 s h1 h2 h3 hpos hrun
    have hd : 0 ≤ d := hpos d (List.mem_cons_self d ds)
    have hds : ∀ x ∈ ds, 0 ≤ x := fun x hx => hpos x (List.mem_cons_of_mem d hx)
    simp only [advanceAll] at hrun
    cases hadv : advance s0.2 s0.1 d dur with
    | error e => simp [hadv] at hrun
    | ok s1 =>
      simp only [hadv] at hrun
      refine ih s1 s ?_ ?_ ?_ hds hrun
      · rcases advance_eq_ok _ _ _ _ _ hadv with ⟨_, w, hr, _⟩ | ⟨_, c, w, hr, _, _⟩
        · rw [hr]
          exact h1
        · rw [hr]
          exact h1
      · rcases advance_eq_ok _ _ _ _ _ hadv with ⟨_, w, hr, _⟩ | ⟨_, c, w, hr, _, _⟩
        · rw [hr]
        · rw [hr]
          exact add_nonneg h2 hd
      · rcases advance_eq_ok _ _ _ _ _ hadv with ⟨_, w, hr, _⟩ | ⟨_, c, w, hr, hseek, _⟩
        · rw [hr]
          intro i hi
          exact absurd hi (Nat.not_lt_zero i)
        · rw [hr]
          intro i hi
          rw [h1] at hseek
          obtain ⟨_, _, _, g4⟩ := seek_eq_ok kt (s0.1 + d) hK _ c hseek
          by_cases hic : i < s0.2.currentIndex
          · have := h3 i hic
            show kt.getD (i + 1) 0 < s0.1 + d
            linarith
          · exact g4 i (not_lt.mp hic) hi

/-- C9 (meaning of `currentIndex`, as amended): take a track with `K ≥ 1`
keyframes, any state reached from the fresh state by calls with
`deltaTime ≥ 0`, and one more call with `deltaTime ≥ 0` that does not reset.
After it `currentIndex ≤ K - 1`, every keyframe passed lies strictly before
the clock (so `weightsTime[currentIndex] < currentTime` when `currentIndex > 0`,
and `weightsTime[currentIndex] ≤ currentTime` when the first keyframe is at or
before time 0), and `currentIndex = K - 1` or
`currentTime ≤ weightsTime[currentIndex+1]`. -/
theorem currentIndex_meaning (mesh : Mesh) (dur d : ℚ) (ds : List ℚ) (s s1 : ℚ × Mesh)
    (hK : 1 ≤ mesh.weightsTime.length)
    (hpos : ∀ x ∈ ds, 0 ≤ x)
    (hrun : advanceAll dur ds (fresh mesh) = .ok s)
    (hd : 0 ≤ d)
    (hnr : s.1 + d ≤ dur)
    (hadv : advance s.2 s.1 d dur = .ok s1) :
    s1.2.weightsTime = mesh.weightsTime ∧
      s1.2.currentIndex ≤ mesh.weightsTime.length - 1 ∧
      (s1.2.currentIndex = 0 ∨ mesh.weightsTime.getD s1.2.currentIndex 0 < s1.1) ∧
      (mesh.weightsTime.getD 0 0 ≤ 0 → mesh.weightsTime.getD s1.2.currentIndex 0 ≤ s1.1) ∧
      (s1.2.currentIndex = mesh.weightsTime.length - 1 ∨
        s1.1 ≤ mesh.weightsTime.getD (s1.2.currentIndex + 1) 0) := by
  obtain ⟨g1, g2, g3⟩ :=
    advanceAll_passed mesh.weightsTime (by omega) dur ds (fresh mesh) s rfl (le_refl _)
      (fun i hi => absurd hi (Nat.not_lt_zero i)) hpos hrun
  rcases advance_eq_ok _ _ _ _ _ hadv with ⟨hreset, _⟩ | ⟨_, c, w, hr, hseek, _⟩
  · exact absurd hreset (not_lt.mpr hnr)
  · rw [g1] at hseek
    obtain ⟨k1, k2, k3, k4⟩ := seek_eq_ok mesh.weightsTime (s.1 + d) (by omega) _ c hseek
    have hpast : ∀ i, i < c → mesh.weightsTime.getD (i + 1) 0 < s.1 + d := by
      intro i hi
      by_cases hic : i < s.2.currentIndex
      · have := g3 i hic
        linarith
      · exact k4 i (not_lt.mp hic) hi
    rw [hr]
    refine ⟨g1, by show c ≤ _; omega, ?_, ?_, k3⟩
    · show c = 0 ∨ mesh.weightsTime.getD c 0 < s.1 + d
      rcases Nat.eq_zero_or_pos c with h0 | h0
      · exact Or.inl h0
      · right
        have := hpast (c - 1) (by omega)
        rwa [Nat.sub_add_cancel h0] at this
    · intro hfirst
      show mesh.weightsTime.getD c 0 ≤ s.1 + d
      rcases Nat.eq_zero_or_pos c with h0 | h0
      · rw [h0]
        linarith
      · have := hpast (c - 1) (by omega)
        rw [Nat.sub_add_cancel h0] at this
        exact this.le

theorem currentIndex_meaning_witness :
    advanceAll 2 [1 / 2] (fresh (scenarioMesh .LINEAR)) =
        .ok (1 / 2, { scenarioMesh .LINEAR with weights := [1 / 2, 1 / 2] }) ∧
      advance { scenarioMesh .LINEAR with weights := [1 / 2, 1 / 2] } (1 / 2) 1 2 =
        .ok (3 / 2, { scenarioMesh .LINEAR with currentIndex := 1, weights := [1 / 2, 1 / 2] }) ∧
      (scenarioMesh .LINEAR).weightsTime.getD 1 0 < 3 / 2 ∧
      ((1 : Nat) = (scenarioMesh .LINEAR).weightsTime.length - 1 ∨
        (3 / 2 : ℚ) ≤ (scenarioMesh .LINEAR).weightsTime.getD (1 + 1) 0) := by
  have hrun : advanceAll 2 [1 / 2] (fresh (scenarioMesh .LINEAR)) =
      .ok (1 / 2, { scenarioMesh .LINEAR with weights := [1 / 2, 1 / 2] }) := by
    norm_num [advanceAll, fresh, advance, render, updateMeshes, sampleMesh, seek, seekLoop,
      sizeMinusOne, readAt, interpolate, writeWeights, linearSample, scenarioMesh]
  have hadv : advance { scenarioMesh .LINEAR with weights := [1 / 2, 1 / 2] } (1 / 2) 1 2 =
      .ok (3 / 2, { scenarioMesh .LINEAR with currentIndex := 1, weights := [1 / 2, 1 / 2] }) := by
    norm_num [advance, render, updateMeshes, sampleMesh, seek, seekLoop,
      sizeMinusOne, readAt, interpolate, writeWeights, linearSample, scenarioMesh]
  obtain ⟨_, _, h3, _, h5⟩ :=
    currentIndex_meaning (scenarioMesh .LINEAR) 2 1 [1 / 2] _ _ (by decide)
      (by
        intro x hx
        simp only [List.mem_singleton] at hx
        rw [hx]
        norm_num)
      hrun (by norm_num) (by norm_num) hadv
  refine ⟨hrun, hadv, ?_, h5⟩
  rcases h3 with h | h
  · exact absurd h (by decide)
  · exact h

/-- C9 (counterexamples to the claim as stated): on the scenario track the
call `advance(1)` from the fresh state does not reset and leaves
`currentIndex = 0` at `currentTime = 1 = weightsTime[1]`, so neither
`currentIndex = K - 1` nor `currentTime < weightsTime[currentIndex+1]`; and
on a track whose first keyframe is at time 1 the call `advance(1/2)` leaves
`currentIndex = 0` with `weightsTime[0] = 1 > currentTime`. Both tracks have
strictly increasing keyframe times. -/
theorem currentIndex_meaning_counterexample :
    ((scenarioMesh .STEP).weightsTime.Pairwise (· < ·) ∧
      advance (fresh (scenarioMesh .STEP)).2 (fresh (scenarioMesh .STEP)).1 1 2 =
        .ok (1, { scenarioMesh .STEP with currentIndex := 0, weights := [0, 0] }) ∧
      ¬ ((0 : Nat) = (scenarioMesh .STEP).weightsTime.length - 1 ∨
        (1 : ℚ) < (scenarioMesh .STEP).weightsTime.getD (0 + 1) 0)) ∧
    ((lateMesh .STEP).weightsTime.Pairwise (· < ·) ∧
      advance (fresh (lateMesh .STEP)).2 (fresh (lateMesh .STEP)).1 (1 / 2) 2 =
        .ok (1 / 2, { lateMesh .STEP with currentIndex := 0, weights := [0] }) ∧
      ¬ ((lateMesh .STEP).weightsTime.getD 0 0 ≤ 1 / 2)) := by
  refine ⟨⟨?_, ?_, ?_⟩, ?_, ?_, ?_⟩
  · norm_num [scenarioMesh]
  · norm_num [fresh, advance, render, updateMeshes, sampleMesh, seek, seekLoop,
      sizeMinusOne, readAt, interpolate, writeWeights, lastIndexSample, scenarioMesh]
  · norm_num [scenarioMesh]
  · norm_num [lateMesh]
  · norm_num [fresh, advance, render, updateMeshes, sampleMesh, seek, seekLoop,
      sizeMinusOne, readAt, interpolate, writeWeights, lastIndexSample, lateMesh,
      (by decide : ¬ Interpolation.STEP = Interpolation.CUBICSPLINE)]
  · norm_num [lateMesh]

/-- C10 (monotone playhead index): whatever the track and the state, a call of
`advance` that returns and does not reset (`currentTime + deltaTime ≤
clipDuration`) leaves `currentIndex` at or after its old value, and one that
resets leaves it at 0; from an index inside the track the seek does return,
at or after the old index. -/
theorem currentIndex_monotone (mesh : Mesh) (ct dt dur : ℚ) :
    (∀ r, advance mesh ct dt dur = .ok r →
      (ct + dt ≤ dur → mesh.currentIndex ≤ r.2.currentIndex) ∧
      (dur < ct + dt → r.2.currentIndex = 0)) ∧
    (mesh.currentIndex < mesh.weightsTime.length →
      ∃ j, seek mesh.weightsTime (ct + dt) mesh.currentIndex = .ok j ∧
        mesh.currentIndex ≤ j) := by
  constructor
  · intro r hr
    rcases advance_eq_ok _ _ _ _ _ hr with ⟨hreset, w, hw, _⟩ | ⟨hno, c, w, hw, hseek, _⟩
    · rw [hw]
      exact ⟨fun h => absurd hreset (not_lt.mpr h), fun _ => rfl⟩
    · rw [hw]
      exact ⟨fun _ => seekLoop_le _ _ _ _ _ hseek, fun h => absurd h (not_lt.mpr hno)⟩
  · intro hc
    obtain ⟨j, hj⟩ := seek_total mesh.weightsTime (ct + dt) mesh.currentIndex hc
    exact ⟨j, hj, seekLoop_le _ _ _ _ _ hj⟩

theorem currentIndex_monotone_witness :
    advance (scenarioMesh .STEP) 0 (3 / 2) 2 =
        .ok (3 / 2, { scenarioMesh .STEP with currentIndex := 1, weights := [1, 1] }) ∧
      (scenarioMesh .STEP).currentIndex ≤ 1 ∧
      advance { scenarioMesh .STEP with currentIndex := 1, weights := [1, 1] } (3 / 2) 1 2 =
        .ok (0, { scenarioMesh .STEP with currentIndex := 0, weights := [0, 0] }) ∧
      ∃ j, seek (scenarioMesh .STEP).weightsTime (0 + 3 / 2) (scenarioMesh .STEP).currentIndex =
        .ok j ∧ (scenarioMesh .STEP).currentIndex ≤ j := by
  have h1 : advance (scenarioMesh .STEP) 0 (3 / 2) 2 =
      .ok (3 / 2, { scenarioMesh .STEP with currentIndex := 1, weights := [1, 1] }) := by
    norm_num [advance, render, updateMeshes, sampleMesh, seek, seekLoop,
      sizeMinusOne, readAt, interpolate, writeWeights, lastIndexSample, scenarioMesh]
  have h2 : advance { scenarioMesh .STEP with currentIndex := 1, weights := [1, 1] } (3 / 2) 1 2 =
      .ok (0, { scenarioMesh .STEP with currentIndex := 0, weights := [0, 0] }) := by
    norm_num [advance, render, updateMeshes, resetMesh, readAt, writeWeights, scenarioMesh]
  exact ⟨h1, ((currentIndex_monotone (scenarioMesh .STEP) 0 (3 / 2) 2).1 _ h1).1 (by norm_num),
    h2, (currentIndex_monotone (scenarioMesh .STEP) 0 (3 / 2) 2).2 (by decide)⟩

/-! ## The weight array along a run -/

theorem interpolate_length (mesh : Mesh) (t : ℚ) (w : List ℚ)
    (h : interpolate t mesh = .ok w) : w.length = mesh.weights.length := by
  unfold interpolate at h
  cases hk : mesh.interpolation with
  | LINEAR =>
    simp only [hk] at h
    by_cases hc : mesh.currentIndex < sizeMinusOne mesh.weightsTime.length
    · simp only [hc, if_true] at h
      cases h0 : readAt mesh.weightsTime mesh.currentIndex with
      | error e => simp [h0] at h
      | ok t0 =>
        cases h1 : readAt mesh.weightsTime (mesh.currentIndex + 1) with
        | error e => simp [h0, h1] at h
        | ok t1 =>
          simp only [h0, h1] at h
          exact writeWeights_length _ _ _ _ _ h
    · simp only [hc, if_false] at h
      exact writeWeights_length _ _ _ _ _ h
  | STEP =>
    simp only [hk] at h
    exact writeWeights_length _ _ _ _ _ h
  | CUBICSPLINE =>
    simp only [hk] at h
    by_cases hc : mesh.currentIndex < sizeMinusOne mesh.weightsTime.length
    · simp only [hc, if_true] at h
      cases h1 : readAt mesh.weightsTime (mesh.currentIndex + 1) with
      | error e => simp [h1] at h
      | ok t1 =>
        cases h0 : readAt mesh.weightsTime mesh.currentIndex with
        | error e => simp [h0, h1] at h
        | ok t0 =>
          simp only [h0, h1] at h
          by_cases ha : (t - t0) / (t1 - t0) ≥ 0 ∧ (t - t0) / (t1 - t0) ≤ 1
          · simp only [ha, and_self, if_true] at h
            exact writeWeights_length _ _ _ _ _ h
          · simp only [ha, if_false] at h
            exact absurd h (by simp)
    · simp only [hc, if_false] at h
      exact writeWeights_length _ _ _ _ _ h
  | UNSUPPORTED =>
    simp only [hk, Except.ok.injEq] at h
    rw [← h]

/-- A returning `advance` keeps the track and the length of the weight array. -/
theorem advance_shape (mesh : Mesh) (ct dt dur : ℚ) (r : ℚ × Mesh)
    (h : advance mesh ct dt dur = .ok r) :
    r.2.interpolation = mesh.interpolation ∧ r.2.weightsTime = mesh.weightsTime ∧
      r.2.weightsData = mesh.weightsData ∧ r.2.weightsInit = mesh.weightsInit ∧
      r.2.weights.length = mesh.weights.length := by
  rcases advance_eq_ok _ _ _ _ _ h with ⟨_, w, hr, hw⟩ | ⟨_, c, w, hr, _, hw⟩
  · rw [hr]
    exact ⟨rfl, rfl, rfl, rfl, writeWeights_length _ _ _ _ _ hw⟩
  · rw [hr]
    exact ⟨rfl, rfl, rfl, rfl, interpolate_length { mesh with currentIndex := c } _ _ hw⟩

theorem advanceAll_shape (dur : ℚ) :
    ∀ (ds : List ℚ) (s0 s : ℚ × Mesh), advanceAll dur ds s0 = .ok s →
      s.2.interpolation = s0.2.interpolation ∧ s.2.weightsTime = s0.2.weightsTime ∧
        s.2.weightsData = s0.2.weightsData ∧ s.2.weightsInit = s0.2.weightsInit ∧
        s.2.weights.length = s0.2.weights.length := by
  intro ds
  induction ds with
  | nil =>
    intro s0 s h
    simp only [advanceAll, Except.ok.injEq] at h
    subst h
    exact ⟨rfl, rfl, rfl, rfl, rfl⟩
  | cons d ds ih =>
    intro s0 s h
    simp only [advanceAll] at h
    cases hadv : advance s0.2 s0.1 d dur with
    | error e => simp [hadv] at h
    | ok s1 =>
      simp only [hadv] at h
      obtain ⟨a1, a2, a3, a4, a5⟩ := advance_shape _ _ _ _ _ hadv
      obtain ⟨b1, b2, b3, b4, b5⟩ := ih s1 s h
      exact ⟨b1.trans a1, b2.trans a2, b3.trans a3, b4.trans a4, b5.trans a5⟩

/-- C11 (initial pose, as amended): in every state reached from the fresh
state by calls of `advance`, the fresh state itself has time 0, index 0 and
`weights = weightsInit`, and every call that resets returns exactly time 0,
index 0 and `weights = weightsInit`. -/
theorem initial_pose_on_reset (mesh : Mesh) (dur : ℚ) (ds : List ℚ) (s : ℚ × Mesh)
    (hrun : advanceAll dur ds (fresh mesh) = .ok s) :
    (ds = [] → s.1 = 0 ∧ s.2.currentIndex = 0 ∧ s.2.weights = mesh.weightsInit) ∧
    (∀ d, dur < s.1 + d →
      advance s.2 s.1 d dur =
        .ok (0, { s.2 with currentIndex := 0, weights := mesh.weightsInit })) := by
  constructor
  · intro hds
    subst hds
    simp only [advanceAll, Except.ok.injEq] at hrun
    subst hrun
    exact ⟨rfl, rfl, rfl⟩
  · intro d hd
    obtain ⟨_, _, _, h4, h5⟩ := advanceAll_shape dur ds (fresh mesh) s hrun
    have hlen : s.2.weights.length = s.2.weightsInit.length := by
      rw [h5, h4]
      rfl
    have hinit : s.2.weightsInit = mesh.weightsInit := h4
    have hdrop : s.2.weightsInit ++ s.2.weights.drop s.2.weightsInit.length =
        mesh.weightsInit := by
      rw [← hlen, List.drop_length, List.append_nil, hinit]
    rw [advance_of_reset s.2 s.1 d dur hd, resetMesh_ok s.2 (by omega), hdrop]
    rfl

theorem initial_pose_on_reset_witness :
    advanceAll 1 [1 / 2] (fresh poseMesh) =
        .ok (1 / 2, { poseMesh with weights := [1] }) ∧
      (1 : ℚ) < 1 / 2 + 1 ∧
      advance { poseMesh with weights := [1] } (1 / 2) 1 1 = .ok (0, poseMesh) := by
  have hrun : advanceAll 1 [1 / 2] (fresh poseMesh) =
      .ok (1 / 2, { poseMesh with weights := [1] }) := by
    norm_num [advanceAll, fresh, advance, render, updateMeshes, sampleMesh, seek, seekLoop,
      sizeMinusOne, readAt, interpolate, writeWeights, lastIndexSample, poseMesh]
  exact ⟨hrun, by norm_num,
    (initial_pose_on_reset poseMesh 1 [1 / 2] _ hrun).2 1 (by norm_num)⟩

/-- C11 (counterexample to the claim as stated): on a STEP track whose
initial weight is 5 and whose first keyframe holds weight 1, `advance(0)`
from the fresh state does not reset, leaves `currentTime = 0` and writes the
keyframe weight: `weights = [1]`, not `weightsInit = [5]`. -/
theorem initial_pose_counterexample :
    advanceAll 1 [0] (fresh poseMesh) = .ok (0, { poseMesh with weights := [1] }) ∧
      ({ poseMesh with weights := [1] } : Mesh).weights ≠ poseMesh.weightsInit := by
  constructor
  · norm_num [advanceAll, fresh, advance, render, updateMeshes, sampleMesh, seek, seekLoop,
      sizeMinusOne, readAt, interpolate, writeWeights, lastIndexSample, poseMesh]
  · norm_num [poseMesh]

/-! ## Negative steps and the spline assertion -/

/-- C12 (negative time steps, as amended): `advance` does not reject
`deltaTime < 0`. From a clock within the clip it adds the negative step to
`currentTime` and runs the seek-and-interpolate branch at that earlier time;
every state it returns has the earlier time and an index that has not moved
back, and on a well-formed STEP track it does return. -/
theorem negative_step_not_rejected (mesh : Mesh) (ct dt dur : ℚ)
    (hneg : dt < 0) (hct : ct ≤ dur) :
    advance mesh ct dt dur = (sampleMesh (ct + dt) mesh).map (fun mesh1 => (ct + dt, mesh1)) ∧
    (∀ r, advance mesh ct dt dur = .ok r →
      r.1 = ct + dt ∧ r.1 < ct ∧ mesh.currentIndex ≤ r.2.currentIndex) ∧
    (mesh.interpolation = .STEP →
      mesh.weightsData.length = mesh.weightsTime.length * mesh.weightsInit.length →
      mesh.weightsInit.length ≤ mesh.weights.length →
      mesh.currentIndex < mesh.weightsTime.length →
      ∃ r, advance mesh ct dt dur = .ok r) := by
  have hdur : ct + dt ≤ dur := by linarith
  refine ⟨advance_of_sample mesh ct dt dur hdur, ?_, ?_⟩
  · intro r hr
    rcases advance_eq_ok _ _ _ _ _ hr with ⟨hreset, _⟩ | ⟨_, c, w, hw, hseek, _⟩
    · exact absurd hreset (not_lt.mpr hdur)
    · rw [hw]
      refine ⟨rfl, ?_, seekLoop_le _ _ _ _ _ hseek⟩
      show ct + dt < ct
      linarith
  · intro hk hdata hbuf hc
    obtain ⟨c, w, h, _⟩ := advance_step_ok mesh ct dt dur hk hdata hbuf hc hdur
    exact ⟨_, h⟩

theorem negative_step_not_rejected_witness :
    advance { scenarioMesh .STEP with currentIndex := 1, weights := [1, 1] } (3 / 2) (-1) 2 =
        .ok (3 / 2 + -1, { scenarioMesh .STEP with currentIndex := 1, weights := [1, 1] }) ∧
      ∃ r, advance { scenarioMesh .STEP with currentIndex := 1, weights := [1, 1] }
        (3 / 2) (-1) 2 = .ok r := by
  have h := negative_step_not_rejected
    { scenarioMesh .STEP with currentIndex := 1, weights := [1, 1] } (3 / 2) (-1) 2
    (by norm_num) (by norm_num)
  refine ⟨?_, h.2.2 rfl (by decide) (by decide) (by decide)⟩
  rw [h.1]
  norm_num [sampleMesh, seek, seekLoop, sizeMinusOne, readAt, interpolate, writeWeights,
    lastIndexSample, scenarioMesh, Except.map]

/-- C12 (counterexample to the claim as stated): on the STEP scenario track at
`currentTime = 3/2`, `currentIndex = 1`, the call with `deltaTime = -1` is not
an error: it returns `currentTime = 1/2` and has rewritten the weights from
keyframe 1. -/
theorem negative_step_counterexample :
    (-1 : ℚ) < 0 ∧
      advance { scenarioMesh .STEP with currentIndex := 1, weights := [7, 7] } (3 / 2) (-1) 2 =
        .ok (1 / 2, { scenarioMesh .STEP with currentIndex := 1, weights := [1, 1] }) := by
  constructor
  · norm_num
  · norm_num [advance, render, updateMeshes, sampleMesh, seek, seekLoop, sizeMinusOne, readAt,
      interpolate, writeWeights, lastIndexSample, scenarioMesh]

/-- C13 (failing input): `lateMesh .CUBICSPLINE` is a validated spline track
(two keyframes at times 1 < 2, packed buffer of length `K * n * 3`); the first
call `advance(1/2)` from the fresh state does not reset, its seek ends at
`currentIndex = 0 < K - 1`, the spline branch runs with `t = -1/2`, and the
assertion `0 ≤ t ≤ 1` fails. -/
theorem spline_parameter_assertion_fails :
    2 ≤ (lateMesh .CUBICSPLINE).weightsTime.length ∧
      (lateMesh .CUBICSPLINE).weightsTime.Pairwise (· < ·) ∧
      (lateMesh .CUBICSPLINE).weightsData.length =
        (lateMesh .CUBICSPLINE).weightsTime.length *
          (lateMesh .CUBICSPLINE).weightsInit.length * 3 ∧
      (0 : ℚ) ≤ 1 / 2 ∧ (0 : ℚ) + 1 / 2 ≤ 2 ∧
      seek (lateMesh .CUBICSPLINE).weightsTime (0 + 1 / 2)
        (fresh (lateMesh .CUBICSPLINE)).2.currentIndex = .ok 0 ∧
      ((0 : ℚ) + 1 / 2 - (lateMesh .CUBICSPLINE).weightsTime.getD 0 0) /
          ((lateMesh .CUBICSPLINE).weightsTime.getD 1 0 -
            (lateMesh .CUBICSPLINE).weightsTime.getD 0 0) = -1 / 2 ∧
      advanceAll 2 [1 / 2] (fresh (lateMesh .CUBICSPLINE)) = .error .assertFailed := by
  refine ⟨by decide, by norm_num [lateMesh], by decide, by norm_num, by norm_num, ?_, ?_, ?_⟩
  · norm_num [fresh, seek, seekLoop, sizeMinusOne, readAt, lateMesh]
  · norm_num [lateMesh]
  · norm_num [advanceAll, fresh, advance, render, updateMeshes, sampleMesh, seek, seekLoop,
      sizeMinusOne, readAt, interpolate, lateMesh]

/-! ## A frame over several meshes -/

/-- In a frame whose clock has overflowed, the loop resets every mesh and
raises the shared flag as soon as there is a mesh. -/
theorem updateMeshes_reset (t tmax : ℚ) (h : tmax < t) :
    ∀ (meshes : List Mesh) (reset : Bool),
      (∀ m ∈ meshes, m.weightsInit.length ≤ m.weights.length) →
      updateMeshes t tmax meshes reset =
        .ok (meshes.map (fun m => { m with
            currentIndex := 0
            weights := m.weightsInit ++ m.weights.drop m.weightsInit.length }),
          reset || !meshes.isEmpty) := by
  intro meshes
  induction meshes with
  | nil =>
    intro reset _
    simp [updateMeshes]
  | cons m rest ih =>
    intro reset hbuf
    have hm := hbuf m (List.mem_cons_self m rest)
    have hrest := ih true (fun x hx => hbuf x (List.mem_cons_of_mem m hx))
    simp only [updateMeshes, gt_iff_lt, h, if_true, resetMesh_ok m hm, hrest]
    simp

/-- In a frame whose clock has not overflowed, the loop samples every mesh at
the shared time and leaves the flag alone. -/
theorem updateMeshes_sample (t tmax : ℚ) (h : t ≤ tmax) :
    ∀ (meshes meshes1 : List Mesh) (reset reset1 : Bool),
      updateMeshes t tmax meshes reset = .ok (meshes1, reset1) ↔
        reset1 = reset ∧
          List.Forall₂ (fun m m1 => sampleMesh t m = .ok m1) meshes meshes1 := by
  intro meshes
  induction meshes with
  | nil =>
    intro meshes1 reset reset1
    simp only [updateMeshes, Except.ok.injEq, Prod.mk.injEq, List.forall₂_nil_left_iff]
    constructor
    · rintro ⟨h1, h2⟩
      exact ⟨h2.symm, h1.symm⟩
    · rintro ⟨h1, h2⟩
      exact ⟨h2.symm, h1.symm⟩
  | cons m rest ih =>
    intro meshes1 reset reset1
    simp only [updateMeshes, gt_iff_lt, not_lt.mpr h, if_false]
    cases hs : sampleMesh t m with
    | error e =>
      constructor
      · intro habs
        cases habs
      · rintro ⟨_, hall⟩
        cases hall with
        | cons hhead _ =>
          rw [hs] at hhead
          cases hhead
    | ok m1 =>
      cases hr : updateMeshes t tmax rest reset with
      | error e =>
        constructor
        · intro habs
          cases habs
        · rintro ⟨hflag, hall⟩
          cases hall with
          | @cons _ b _ l2 hhead htail =>
            have := (ih l2 reset reset).mpr ⟨rfl, htail⟩
            rw [hr] at this
            cases this
      | ok res =>
        obtain ⟨rest1, flag⟩ := res
        obtain ⟨hflag, hall⟩ := (ih rest1 reset flag).mp hr
        constructor
        · intro heq
          simp only [Except.ok.injEq, Prod.mk.injEq] at heq
          refine ⟨by rw [← heq.2, hflag], ?_⟩
          rw [← heq.1]
          exact List.Forall₂.cons hs hall
        · rintro ⟨h1, h2⟩
          cases h2 with
          | @cons _ b _ l2 hhead htail =>
            rw [hs, Except.ok.injEq] at hhead
            have hrest := (ih l2 reset reset).mpr ⟨rfl, htail⟩
            rw [hr, Except.ok.injEq, Prod.mk.injEq] at hrest
            simp only [Except.ok.injEq, Prod.mk.injEq, List.cons.injEq]
            exact ⟨⟨hhead, hrest.1⟩, by rw [h1, hrest.2]⟩

/-- C14 (all tracks reset together): take a frame over a non-empty list of
meshes whose weight arrays hold their target counts. If the updated clock
exceeds `animationMaxTime`, `render` returns the clock at 0 and every mesh
with `currentIndex = 0` and its first `weightsInit.size()` weights equal to
`weightsInit` (the rest of each array untouched); otherwise it returns
exactly when every mesh samples at the updated clock, with that clock kept
and each mesh replaced by its seek-and-interpolate result. -/
theorem render_reset_together (models : Model) (tDiff : ℚ)
    (hne : models.meshesMorph ≠ [])
    (hbuf : ∀ m ∈ models.meshesMorph, m.weightsInit.length ≤ m.weights.length) :
    (models.animationMaxTime < models.currentTime + tDiff →
      ∃ r, render models tDiff = .ok r ∧ r.currentTime = 0 ∧
        r.meshesMorph = models.meshesMorph.map (fun m => { m with
          currentIndex := 0
          weights := m.weightsInit ++ m.weights.drop m.weightsInit.length }) ∧
        ∀ m1 ∈ r.meshesMorph, m1.currentIndex = 0 ∧
          ∀ i, i < m1.weightsInit.length → m1.weights[i]? = m1.weightsInit[i]?) ∧
    (models.currentTime + tDiff ≤ models.animationMaxTime →
      ∀ r, render models tDiff = .ok r ↔
        r.currentTime = models.currentTime + tDiff ∧
          r.animationMaxTime = models.animationMaxTime ∧
          List.Forall₂ (fun m m1 => sampleMesh (models.currentTime + tDiff) m = .ok m1)
            models.meshesMorph r.meshesMorph) := by
  constructor
  · intro h
    have hflag : (false || !models.meshesMorph.isEmpty) = true := by
      cases hm : models.meshesMorph with
      | nil => exact absurd hm hne
      | cons a l => rfl
    refine ⟨{ models with
        currentTime := 0
        meshesMorph := models.meshesMorph.map (fun m => { m with
          currentIndex := 0
          weights := m.weightsInit ++ m.weights.drop m.weightsInit.length }) },
      ?_, rfl, rfl, ?_⟩
    · simp only [render, updateMeshes_reset _ _ h models.meshesMorph false hbuf, hflag, if_true]
    · intro m1 hm1
      obtain ⟨m, _, rfl⟩ := List.mem_map.mp hm1
      exact ⟨rfl, fun i hi => List.getElem?_append_left hi⟩
  · intro h r
    cases hu : updateMeshes (models.currentTime + tDiff) models.animationMaxTime
        models.meshesMorph false with
    | error e =>
      simp only [render, hu]
      constructor
      · intro habs
        cases habs
      · rintro ⟨_, _, hall⟩
        have := (updateMeshes_sample _ _ h models.meshesMorph r.meshesMorph false false).mpr
          ⟨rfl, hall⟩
        rw [hu] at this
        cases this
    | ok res =>
      obtain ⟨meshes1, flag⟩ := res
      obtain ⟨hflag, hall⟩ := (updateMeshes_sample _ _ h _ _ _ _).mp hu
      subst hflag
      simp only [render, hu, Except.ok.injEq]
      constructor
      · intro hr
        rw [← hr]
        exact ⟨by simp, rfl, hall⟩
      · rintro ⟨h1, h2, h3⟩
        have hsame := (updateMeshes_sample _ _ h models.meshesMorph r.meshesMorph false false).mpr
          ⟨rfl, h3⟩
        rw [hu, Except.ok.injEq, Prod.mk.injEq] at hsame
        cases r
        simp only [Model.mk.injEq]
        exact ⟨by simpa using h1.symm, h2.symm, hsame.1⟩

theorem render_reset_together_witness :
    render
        { currentTime := 3 / 2
          animationMaxTime := 2
          meshesMorph :=
            [{ scenarioMesh .LINEAR with currentIndex := 1, weights := [1 / 2, 1 / 2] },
              { poseMesh with currentIndex := 1, weights := [2] }] } 1 =
      .ok
        { currentTime := 0
          animationMaxTime := 2
          meshesMorph := [scenarioMesh .LINEAR, poseMesh] } ∧
    render
        { currentTime := 0
          animationMaxTime := 2
          meshesMorph := [scenarioMesh .LINEAR, poseMesh] } (1 / 2) =
      .ok
        { currentTime := 1 / 2
          animationMaxTime := 2
          meshesMorph :=
            [{ scenarioMesh .LINEAR with weights := [1 / 2, 1 / 2] },
              { poseMesh with weights := [1] }] } := by
  constructor
  · obtain ⟨r, hr, h0, hm, _⟩ :=
      (render_reset_together
        { currentTime := 3 / 2
          animationMaxTime := 2
          meshesMorph :=
            [{ scenarioMesh .LINEAR with currentIndex := 1, weights := [1 / 2, 1 / 2] },
              { poseMesh with currentIndex := 1, weights := [2] }] } 1
        (by decide)
        (by
          intro m hm
          simp only [List.mem_cons, List.mem_singleton, List.mem_nil_iff, or_false] at hm
          rcases hm with rfl | rfl <;> decide)).1 (by norm_num)
    rw [hr]
    have hmax : r.animationMaxTime = 2 := by
      simp only [render] at hr
      split at hr
      · exact absurd hr (by simp)
      · simp only [Except.ok.injEq] at hr
        rw [← hr]
    cases r
    simp only [Except.ok.injEq, Model.mk.injEq]
    exact ⟨h0, hmax, hm⟩
  · norm_num [render, updateMeshes, sampleMesh, seek, seekLoop, sizeMinusOne, readAt,
      interpolate, writeWeights, linearSample, lastIndexSample, scenarioMesh, poseMesh]

/-! ## Bounds -/

/-- The spline branch stops at its assertion when `t` is outside `[0, 1]`. -/
theorem interpolate_spline_assert (mesh : Mesh) (t : ℚ) (hk : mesh.interpolation = .CUBICSPLINE)
    (hc : mesh.currentIndex + 1 < mesh.weightsTime.length)
    (ha : ¬ (0 ≤ (t - mesh.weightsTime.getD mesh.currentIndex 0) /
        (mesh.weightsTime.getD (mesh.currentIndex + 1) 0 -
          mesh.weightsTime.getD mesh.currentIndex 0) ∧
      (t - mesh.weightsTime.getD mesh.currentIndex 0) /
        (mesh.weightsTime.getD (mesh.currentIndex + 1) 0 -
          mesh.weightsTime.getD mesh.currentIndex 0) ≤ 1)) :
    interpolate t mesh = .error .assertFailed := by
  have hlt : mesh.currentIndex < sizeMinusOne mesh.weightsTime.length := by
    rw [sizeMinusOne_pos _ (by omega)]
    omega
  simp only [interpolate, hk, hlt, if_true, readAt_ok mesh.weightsTime mesh.currentIndex (by omega),
    readAt_ok mesh.weightsTime (mesh.currentIndex + 1) hc, ge_iff_le, ha, if_false]

theorem sampleMesh_error (mesh : Mesh) (t : ℚ) (c : Nat) (e : Fault)
    (hseek : seek mesh.weightsTime t mesh.currentIndex = .ok c)
    (hint : interpolate t { mesh with currentIndex := c } = .error e) :
    sampleMesh t mesh = .error e := by
  simp only [sampleMesh, hseek, hint]

/-- On a well-formed track and state, the seek-and-interpolate branch either
returns a state whose index is inside the track or, for a spline track only,
stops at the assertion. -/
theorem sampleMesh_in_bounds (mesh : Mesh) (t : ℚ)
    (hK : 1 ≤ mesh.weightsTime.length)
    (hplain : mesh.interpolation = .STEP ∨ mesh.interpolation = .LINEAR →
      mesh.weightsData.length = mesh.weightsTime.length * mesh.weightsInit.length)
    (hpacked : mesh.interpolation = .CUBICSPLINE →
      mesh.weightsData.length = mesh.weightsTime.length * mesh.weightsInit.length * 3)
    (hbuf : mesh.weightsInit.length ≤ mesh.weights.length)
    (hc : mesh.currentIndex ≤ mesh.weightsTime.length - 1) :
    (∃ m1, sampleMesh t mesh = .ok m1 ∧ m1.currentIndex ≤ mesh.weightsTime.length - 1) ∨
      (mesh.interpolation = .CUBICSPLINE ∧ sampleMesh t mesh = .error .assertFailed) := by
  obtain ⟨j, hseek⟩ := seek_total mesh.weightsTime t mesh.currentIndex (by omega)
  obtain ⟨_, hjK, _, _⟩ := seek_eq_ok mesh.weightsTime t (by omega) _ j hseek
  have hok : ∀ w, interpolate t { mesh with currentIndex := j } = .ok w →
      ∃ m1, sampleMesh t mesh = .ok m1 ∧ m1.currentIndex ≤ mesh.weightsTime.length - 1 := by
    intro w hw
    exact ⟨_, sampleMesh_of mesh t j w hseek hw, by show j ≤ _; omega⟩
  have hmulle : j * mesh.weightsInit.length + mesh.weightsInit.length ≤
      mesh.weightsTime.length * mesh.weightsInit.length := by
    rw [← Nat.succ_mul]
    exact Nat.mul_le_mul_right _ (by omega)
  have htail : ¬ (j + 1 < mesh.weightsTime.length) →
      ¬ (j < sizeMinusOne mesh.weightsTime.length) := by
    intro h
    rw [sizeMinusOne_pos _ (by omega)]
    omega
  cases hk : mesh.interpolation with
  | LINEAR =>
    left
    have hdata := hplain (Or.inr hk)
    by_cases hj : j + 1 < mesh.weightsTime.length
    · obtain ⟨w, hw, _⟩ :=
        interpolate_linear { mesh with currentIndex := j } t hk hj hbuf (by
          show (j + 2) * mesh.weightsInit.length ≤ mesh.weightsData.length
          rw [hdata]
          exact Nat.mul_le_mul_right _ (by omega))
      exact hok w hw
    · obtain ⟨w, hw, _⟩ :=
        lastIndex_ok mesh.weightsData mesh.weights j mesh.weightsInit.length hbuf
          (by rw [hdata]; exact hmulle)
      refine hok w ?_
      rw [interpolate_linear_tail { mesh with currentIndex := j } t hk (htail hj)]
      exact hw
  | STEP =>
    left
    have hdata := hplain (Or.inl hk)
    obtain ⟨w, hw, _⟩ :=
      lastIndex_ok mesh.weightsData mesh.weights j mesh.weightsInit.length hbuf
        (by rw [hdata]; exact hmulle)
    refine hok w ?_
    rw [interpolate_step { mesh with currentIndex := j } t hk]
    exact hw
  | CUBICSPLINE =>
    have hdata := hpacked hk
    by_cases hj : j + 1 < mesh.weightsTime.length
    · by_cases ha : 0 ≤ (t - mesh.weightsTime.getD j 0) /
            (mesh.weightsTime.getD (j + 1) 0 - mesh.weightsTime.getD j 0) ∧
          (t - mesh.weightsTime.getD j 0) /
            (mesh.weightsTime.getD (j + 1) 0 - mesh.weightsTime.getD j 0) ≤ 1
      · left
        obtain ⟨w, hw, _⟩ :=
          interpolate_spline { mesh with currentIndex := j } t hk hj hbuf (by
            show (j + 2) * mesh.weightsInit.length * 3 ≤ mesh.weightsData.length
            rw [hdata]
            exact Nat.mul_le_mul_right _ (Nat.mul_le_mul_right _ (by omega))) ha.1 ha.2
        exact hok w hw
      · right
        exact ⟨rfl, sampleMesh_error mesh t j _ hseek
          (interpolate_spline_assert { mesh with currentIndex := j } t hk hj ha)⟩
    · left
      obtain ⟨w, hw, _⟩ :=
        lastIndex_ok mesh.weightsData mesh.weights j mesh.weightsInit.length hbuf
          (by
            rw [hdata]
            exact le_trans hmulle (Nat.le_mul_of_pos_right _ (by omega)))
      refine hok w ?_
      rw [interpolate_spline_tail { mesh with currentIndex := j } t hk (htail hj)]
      exact hw
  | UNSUPPORTED =>
    left
    refine hok mesh.weights ?_
    simp only [interpolate, hk]

/-- C15 (index and buffer bounds): on a track with `K ≥ 1` keyframes whose
`weightsData` has length `K * targetCount` (STEP, LINEAR) or
`K * targetCount * 3` (CUBICSPLINE), from a state with `currentIndex ≤ K - 1`
whose weight array holds `targetCount` entries, `advance` never reads or
writes out of bounds and never runs out of fuel: it either returns a state
with `currentIndex ≤ K - 1` or, on a spline track only, stops at the spline
assertion. -/
theorem advance_in_bounds (mesh : Mesh) (ct dt dur : ℚ)
    (hK : 1 ≤ mesh.weightsTime.length)
    (hplain : mesh.interpolation = .STEP ∨ mesh.interpolation = .LINEAR →
      mesh.weightsData.length = mesh.weightsTime.length * mesh.weightsInit.length)
    (hpacked : mesh.interpolation = .CUBICSPLINE →
      mesh.weightsData.length = mesh.weightsTime.length * mesh.weightsInit.length * 3)
    (hbuf : mesh.weightsInit.length ≤ mesh.weights.length)
    (hc : mesh.currentIndex ≤ mesh.weightsTime.length - 1) :
    ((∃ r, advance mesh ct dt dur = .ok r ∧ r.2.currentIndex ≤ mesh.weightsTime.length - 1) ∨
      (mesh.interpolation = .CUBICSPLINE ∧ advance mesh ct dt dur = .error .assertFailed)) ∧
    advance mesh ct dt dur ≠ .error .outOfBounds ∧
    advance mesh ct dt dur ≠ .error .outOfFuel := by
  have hmain : (∃ r, advance mesh ct dt dur = .ok r ∧
        r.2.currentIndex ≤ mesh.weightsTime.length - 1) ∨
      (mesh.interpolation = .CUBICSPLINE ∧ advance mesh ct dt dur = .error .assertFailed) := by
    by_cases hd : dur < ct + dt
    · left
      refine ⟨(0, { mesh with
          currentIndex := 0
          weights := mesh.weightsInit ++ mesh.weights.drop mesh.weightsInit.length }), ?_, ?_⟩
      · rw [advance_of_reset mesh ct dt dur hd, resetMesh_ok mesh hbuf]
        rfl
      · exact Nat.zero_le _
    · rw [advance_of_sample mesh ct dt dur (not_lt.mp hd)]
      rcases sampleMesh_in_bounds mesh (ct + dt) hK hplain hpacked hbuf hc with
        ⟨m1, h1, h2⟩ | ⟨h1, h2⟩
      · left
        exact ⟨(ct + dt, m1), by rw [h1]; rfl, h2⟩
      · right
        exact ⟨h1, by rw [h2]; rfl⟩
  refine ⟨hmain, ?_, ?_⟩
  · rcases hmain with ⟨r, hr, _⟩ | ⟨_, he⟩
    · rw [hr]
      exact fun h => by cases h
    · rw [he]
      exact fun h => by cases h
  · rcases hmain with ⟨r, hr, _⟩ | ⟨_, he⟩
    · rw [hr]
      exact fun h => by cases h
    · rw [he]
      exact fun h => by cases h

theorem advance_in_bounds_witness :
    ((∃ r, advance splineScenarioMesh 0 (1 / 2) 1 = .ok r ∧
        r.2.currentIndex ≤ splineScenarioMesh.weightsTime.length - 1) ∨
      (splineScenarioMesh.interpolation = .CUBICSPLINE ∧
        advance splineScenarioMesh 0 (1 / 2) 1 = .error .assertFailed)) ∧
    advance splineScenarioMesh 0 (1 / 2) 1 ≠ .error .outOfBounds ∧
    advance splineScenarioMesh 0 (1 / 2) 1 ≠ .error .outOfFuel :=
  advance_in_bounds splineScenarioMesh 0 (1 / 2) 1 (by decide)
    (by
      intro h
      rcases h with h | h <;> exact absurd h (by decide))
    (fun _ => by decide) (by decide) (by decide)

/-! ## Splitting a step in two -/

/-- The write loop does not depend on the entries it overwrites. -/
theorem writeWeights_congr (src : Nat → Except Fault ℚ) :
    ∀ (remaining i : Nat) (w w1 : List ℚ), w.length = w1.length →
      (∀ j, (j < i ∨ i + remaining ≤ j) → w[j]? = w1[j]?) →
      writeWeights src remaining i w = writeWeights src remaining i w1 := by
  intro remaining
  induction remaining with
  | zero =>
    intro i w w1 _ hag
    have : w = w1 := by
      apply List.ext_getElem?
      intro j
      exact hag j (by omega)
    rw [this]
  | succ k ih =>
    intro i w w1 hlen hag
    simp only [writeWeights]
    cases hs : src i with
    | error e => rfl
    | ok v =>
      by_cases hi : i < w.length
      · have hi1 : i < w1.length := by omega
        simp only [hi, hi1, if_true]
        apply ih
        · simp only [List.length_set, hlen]
        · intro j hj
          by_cases hji : j = i
          · subst hji
            simp [List.getElem?_set, hi, hi1]
          · have hne : i ≠ j := fun h => hji h.symm
            simp only [List.getElem?_set, hne, if_false]
            exact hag j (by omega)
      · have hi1 : ¬ i < w1.length := by omega
        simp only [hi, hi1, if_false]

/-- Entries outside the written range are left as they were. -/
theorem writeWeights_frame (src : Nat → Except Fault ℚ) :
    ∀ (remaining i : Nat) (w w1 : List ℚ), writeWeights src remaining i w = .ok w1 →
      ∀ j, (j < i ∨ i + remaining ≤ j) → w1[j]? = w[j]? := by
  intro remaining
  induction remaining with
  | zero =>
    intro i w w1 h j _
    simp only [writeWeights, Except.ok.injEq] at h
    rw [h]
  | succ k ih =>
    intro i w w1 h j hj
    simp only [writeWeights] at h
    cases hs : src i with
    | error e => simp [hs] at h
    | ok v =>
      simp only [hs] at h
      by_cases hi : i < w.length
      · simp only [hi, if_true] at h
        rw [ih (i + 1) (w.set i v) w1 h j (by omega)]
        have hne : i ≠ j := by omega
        simp only [List.getElem?_set, hne, if_false]
      · simp [hi] at h

/-- The interpolation only depends on the weight array through its length
and the entries past `targetCount`. -/
theorem interpolate_congr (mesh : Mesh) (t : ℚ) (w1 : List ℚ)
    (hk : mesh.interpolation ≠ .UNSUPPORTED)
    (hlen : w1.length = mesh.weights.length)
    (hag : ∀ j, mesh.weightsInit.length ≤ j → w1[j]? = mesh.weights[j]?) :
    interpolate t { mesh with weights := w1 } = interpolate t mesh := by
  have hw : ∀ src : Nat → Except Fault ℚ,
      writeWeights src mesh.weightsInit.length 0 w1 =
        writeWeights src mesh.weightsInit.length 0 mesh.weights := by
    intro src
    exact writeWeights_congr src _ 0 _ _ hlen (fun j hj => hag j (by omega))
  unfold interpolate
  cases hkind : mesh.interpolation with
  | LINEAR =>
    simp only [hkind]
    split
    · split
      · rfl
      · split
        · rfl
        · exact hw _
    · exact hw _
  | STEP =>
    simp only [hkind]
    exact hw _
  | CUBICSPLINE =>
    simp only [hkind]
    split
    · split
      · rfl
      · split
        · rfl
        · split
          · exact hw _
          · rfl
    · exact hw _
  | UNSUPPORTED => exact absurd hkind hk

/-- Entries past `targetCount` survive the interpolation. -/
theorem interpolate_frame (mesh : Mesh) (t : ℚ) (w : List ℚ)
    (h : interpolate t mesh = .ok w) :
    ∀ j, mesh.weightsInit.length ≤ j → w[j]? = mesh.weights[j]? := by
  intro j hj
  unfold interpolate at h
  cases hk : mesh.interpolation with
  | LINEAR =>
    simp only [hk] at h
    by_cases hc : mesh.currentIndex < sizeMinusOne mesh.weightsTime.length
    · simp only [hc, if_true] at h
      cases h0 : readAt mesh.weightsTime mesh.currentIndex with
      | error e => simp [h0] at h
      | ok t0 =>
        cases h1 : readAt mesh.weightsTime (mesh.currentIndex + 1) with
        | error e => simp [h0, h1] at h
        | ok t1 =>
          simp only [h0, h1] at h
          exact writeWeights_frame _ _ _ _ _ h j (by omega)
    · simp only [hc, if_false] at h
      exact writeWeights_frame _ _ _ _ _ h j (by omega)
  | STEP =>
    simp only [hk] at h
    exact writeWeights_frame _ _ _ _ _ h j (by omega)
  | CUBICSPLINE =>
    simp only [hk] at h
    by_cases hc : mesh.currentIndex < sizeMinusOne mesh.weightsTime.length
    · simp only [hc, if_true] at h
      cases h1 : readAt mesh.weightsTime (mesh.currentIndex + 1) with
      | error e => simp [h1] at h
      | ok t1 =>
        cases h0 : readAt mesh.weightsTime mesh.currentIndex with
        | error e => simp [h0, h1] at h
        | ok t0 =>
          simp only [h0, h1] at h
          by_cases ha : (t - t0) / (t1 - t0) ≥ 0 ∧ (t - t0) / (t1 - t0) ≤ 1
          · simp only [ha, and_self, if_true] at h
            exact writeWeights_frame _ _ _ _ _ h j (by omega)
          · simp only [ha, if_false] at h
            exact absurd h (by simp)
    · simp only [hc, if_false] at h
      exact writeWeights_frame _ _ _ _ _ h j (by omega)
  | UNSUPPORTED =>
    simp only [hk, Except.ok.injEq] at h
    rw [← h]

/-- Seeking to a later time from where an earlier seek stopped is the same
as seeking to the later time directly. -/
theorem seek_compose (kt : List ℚ) (t1 t2 : ℚ) (c j1 : Nat) (ht : t1 ≤ t2)
    (h : seek kt t1 c = .ok j1) : seek kt t2 j1 = seek kt t2 c := by
  by_cases hK : 0 < kt.length
  · obtain ⟨a1, a2, _, a4⟩ := seek_eq_ok kt t1 hK c j1 h
    obtain ⟨j2, hj2⟩ := seek_total kt t2 j1 a2
    obtain ⟨j, hj⟩ := seek_total kt t2 c (by omega)
    obtain ⟨b1, b2, b3, b4⟩ := seek_eq_ok kt t2 hK j1 j2 hj2
    obtain ⟨c1, c2, c3, c4⟩ := seek_eq_ok kt t2 hK c j hj
    have hpast : ∀ i, c ≤ i → i < j2 → kt.getD (i + 1) 0 < t2 := by
      intro i hi1 hi2
      by_cases hij : i < j1
      · exact lt_of_lt_of_le (a4 i hi1 hij) ht
      · exact b4 i (not_lt.mp hij) hi2
    have hjj : j2 = j := stop_unique kt t2 c j2 j b3 hpast (by omega) b2 c3 c4 c1 c2
    rw [hj2, hj, hjj]
  · have hlen : kt.length = 0 := by omega
    have hj1 : j1 = c := by
      simp only [seek, seekLoop, hlen] at h
      by_cases hc : c = sizeMinusOne 0
      · simp only [hc, if_true, Except.ok.injEq] at h
        rw [← h, hc]
      · simp only [hc, if_false] at h
        have hread : readAt kt (c + 1) = .error .outOfBounds := by
          simp [readAt, List.getElem?_eq_none, hlen]
        simp [hread] at h
    rw [hj1]

/-- Splitting a step where the first part returns: let `d1, d2 ≥ 0` with
`currentTime + d1 + d2 ≤ clipDuration`. Whenever the call `advance(d1)`
returns a state, the call `advance(d2)` from that state gives exactly the
result of the single call `advance(d1 + d2)` from the original state (same
time, index and weights, or the same fault); and on a well-formed STEP or
LINEAR track with `K ≥ 1` and `currentIndex ≤ K - 1` the call `advance(d1)`
does return. -/
theorem advance_path_independent (mesh : Mesh) (ct d1 d2 dur : ℚ)
    (_hd1 : 0 ≤ d1) (hd2 : 0 ≤ d2) (hdur : ct + d1 + d2 ≤ dur) :
    (∀ s1, advance mesh ct d1 dur = .ok s1 →
      advance s1.2 s1.1 d2 dur = advance mesh ct (d1 + d2) dur) ∧
    (mesh.interpolation = .STEP ∨ mesh.interpolation = .LINEAR →
      1 ≤ mesh.weightsTime.length →
      mesh.weightsData.length = mesh.weightsTime.length * mesh.weightsInit.length →
      mesh.weightsInit.length ≤ mesh.weights.length →
      mesh.currentIndex ≤ mesh.weightsTime.length - 1 →
      ∃ s1, advance mesh ct d1 dur = .ok s1) := by
  have hdur1 : ct + d1 ≤ dur := by linarith
  constructor
  · intro s1 h1
    rcases advance_eq_ok _ _ _ _ _ h1 with ⟨hreset, _⟩ | ⟨_, j1, w1, hs1, hseek1, hint1⟩
    · exact absurd hreset (not_lt.mpr hdur1)
    · rw [hs1]
      rw [advance_of_sample _ (ct + d1) d2 dur hdur,
        advance_of_sample mesh ct (d1 + d2) dur (by linarith), add_assoc]
      have hseek : seek mesh.weightsTime (ct + (d1 + d2)) j1 =
          seek mesh.weightsTime (ct + (d1 + d2)) mesh.currentIndex :=
        seek_compose _ _ _ _ _ (by linarith) hseek1
      have hlen := interpolate_length { mesh with currentIndex := j1 } _ _ hint1
      have hframe := interpolate_frame { mesh with currentIndex := j1 } _ _ hint1
      have hsample : sampleMesh (ct + (d1 + d2))
            { mesh with currentIndex := j1, weights := w1 } =
          sampleMesh (ct + (d1 + d2)) mesh := by
        simp only [sampleMesh, hseek]
        cases hj : seek mesh.weightsTime (ct + (d1 + d2)) mesh.currentIndex with
        | error e => rfl
        | ok j =>
          have hint : interpolate (ct + (d1 + d2))
                { mesh with currentIndex := j, weights := w1 } =
              interpolate (ct + (d1 + d2)) { mesh with currentIndex := j } := by
            by_cases hk : mesh.interpolation = .UNSUPPORTED
            · have hw1 : w1 = mesh.weights := by
                simp only [interpolate, hk, Except.ok.injEq] at hint1
                exact hint1.symm
              rw [hw1]
            · exact interpolate_congr { mesh with currentIndex := j } _ w1 hk hlen hframe
          simp only [hint]
      show Except.map _ (sampleMesh (ct + (d1 + d2))
        { mesh with currentIndex := j1, weights := w1 }) = _
      rw [hsample]
  · intro hk hK hdata hbuf hc
    rw [advance_of_sample mesh ct d1 dur hdur1]
    rcases sampleMesh_in_bounds mesh (ct + d1) hK (fun _ => hdata)
        (fun h => by rcases hk with hk | hk <;> rw [hk] at h <;> cases h) hbuf hc with
      ⟨m1, h1, _⟩ | ⟨h1, _⟩
    · exact ⟨(ct + d1, m1), by rw [h1]; rfl⟩
    · rcases hk with hk | hk <;> rw [hk] at h1 <;> cases h1

theorem advance_path_independent_scenario :
    advance (scenarioMesh .LINEAR) 0 (1 / 2) 2 =
        .ok (1 / 2, { scenarioMesh .LINEAR with weights := [1 / 2, 1 / 2] }) ∧
      advance { scenarioMesh .LINEAR with weights := [1 / 2, 1 / 2] } (1 / 2) 1 2 =
        advance (scenarioMesh .LINEAR) 0 (1 / 2 + 1) 2 ∧
      ∃ s1, advance (scenarioMesh .LINEAR) 0 (1 / 2) 2 = .ok s1 := by
  have h := advance_path_independent (scenarioMesh .LINEAR) 0 (1 / 2) 1 2 (by norm_num)
    (by norm_num) (by norm_num)
  have h1 : advance (scenarioMesh .LINEAR) 0 (1 / 2) 2 =
      .ok (1 / 2, { scenarioMesh .LINEAR with weights := [1 / 2, 1 / 2] }) := by
    norm_num [advance, render, updateMeshes, sampleMesh, seek, seekLoop, sizeMinusOne, readAt,
      interpolate, writeWeights, linearSample, scenarioMesh]
  exact ⟨h1, h.1 _ h1, h.2 (Or.inr rfl) (by decide) (by decide) (by decide) (by decide)⟩

/-- C16 (path independence, failing input): on the validated packed spline
track with keyframes at times 1 and 2, from time 0 and index 0 with
`d1 = 1/2`, `d2 = 1` and `clipDuration = 2`, the two calls `advance(1/2)`,
`advance(1)` stop at the spline assertion of the first call, while the single
call `advance(3/2)` returns time `3/2`, index 0 and `weights = [1/2]`. -/
theorem advance_split_stops :
    (lateMesh .CUBICSPLINE).currentIndex ≤ (lateMesh .CUBICSPLINE).weightsTime.length - 1 ∧
      (0 : ℚ) + 1 / 2 + 1 ≤ 2 ∧
      advanceAll 2 [1 / 2, 1] (0, lateMesh .CUBICSPLINE) = .error .assertFailed ∧
      advanceAll 2 [1 / 2 + 1] (0, lateMesh .CUBICSPLINE) =
        .ok (3 / 2, { lateMesh .CUBICSPLINE with weights := [1 / 2] }) := by
  refine ⟨by decide, by norm_num, ?_, ?_⟩
  · norm_num [advanceAll, advance, render, updateMeshes, sampleMesh, seek, seekLoop,
      sizeMinusOne, readAt, interpolate, lateMesh]
  · norm_num [advanceAll, advance, render, updateMeshes, sampleMesh, seek, seekLoop,
      sizeMinusOne, readAt, interpolate, writeWeights, splineSample, lateMesh]

/-- C17 (unrecognized interpolation kind): for a mesh whose kind is none of
LINEAR, STEP, CUBICSPLINE, a non-resetting `advance` is the keyframe seek
alone: it returns the updated time and the index found by the seek, with the
weight array exactly as it was, and fails only if the seek does; from an
index inside the track it returns. -/
theorem advance_unsupported (mesh : Mesh) (ct dt dur : ℚ)
    (hk : mesh.interpolation = .UNSUPPORTED) (hdur : ct + dt ≤ dur) :
    advance mesh ct dt dur =
        (seek mesh.weightsTime (ct + dt) mesh.currentIndex).map
          (fun c => (ct + dt, { mesh with currentIndex := c })) ∧
      (∀ r, advance mesh ct dt dur = .ok r → r.1 = ct + dt ∧ r.2.weights = mesh.weights) ∧
      (mesh.currentIndex < mesh.weightsTime.length →
        ∃ c, seek mesh.weightsTime (ct + dt) mesh.currentIndex = .ok c ∧
          mesh.currentIndex ≤ c ∧
          advance mesh ct dt dur = .ok (ct + dt, { mesh with currentIndex := c })) := by
  have hadv : advance mesh ct dt dur =
      (seek mesh.weightsTime (ct + dt) mesh.currentIndex).map
        (fun c => (ct + dt, { mesh with currentIndex := c })) := by
    rw [advance_of_sample mesh ct dt dur hdur]
    simp only [sampleMesh]
    cases seek mesh.weightsTime (ct + dt) mesh.currentIndex with
    | error e => rfl
    | ok c =>
      simp only [interpolate, hk]
      rfl
  refine ⟨hadv, ?_, ?_⟩
  · intro r hr
    rw [hadv] at hr
    cases hs : seek mesh.weightsTime (ct + dt) mesh.currentIndex with
    | error e =>
      rw [hs] at hr
      cases hr
    | ok c =>
      rw [hs] at hr
      simp only [Except.map, Except.ok.injEq] at hr
      rw [← hr]
      exact ⟨rfl, rfl⟩
  · intro hc
    obtain ⟨c, hs⟩ := seek_total mesh.weightsTime (ct + dt) mesh.currentIndex hc
    refine ⟨c, hs, seekLoop_le _ _ _ _ _ hs, ?_⟩
    rw [hadv, hs]
    rfl

theorem advance_unsupported_witness :
    advance { scenarioMesh .UNSUPPORTED with weights := [7, 9] } 0 (3 / 2) 2 =
        .ok (3 / 2, { scenarioMesh .UNSUPPORTED with currentIndex := 1, weights := [7, 9] }) ∧
      ∃ c, seek (scenarioMesh .UNSUPPORTED).weightsTime (0 + 3 / 2) 0 = .ok c ∧ 0 ≤ c ∧
        advance { scenarioMesh .UNSUPPORTED with weights := [7, 9] } 0 (3 / 2) 2 =
          .ok (0 + 3 / 2,
            { scenarioMesh .UNSUPPORTED with currentIndex := c, weights := [7, 9] }) := by
  have h := advance_unsupported { scenarioMesh .UNSUPPORTED with weights := [7, 9] } 0 (3 / 2) 2
    rfl (by norm_num)
  refine ⟨?_, h.2.2 (by decide)⟩
  rw [h.1]
  norm_num [seek, seekLoop, sizeMinusOne, readAt, scenarioMesh, Except.map]

end MorphTarget
